import Mathlib

/-!
# String helpers of `lo` (`string.go`): a shallow embedding

The Go functions `Substring`/`substring`, `RandomString`, `nearestPowerOfTwo`,
`ChunkString` and `Ellipsis` are embedded as Lean functions over byte lists,
together with the parts of the Go standard library they call (`unicode/utf8`,
`strings.ReplaceAll`, `strings.TrimSpace`, `strings.Builder.WriteRune`).

Conventions.
* A Go `string` is a list of bytes; indices and `len` count bytes.
* Go `int` is a 64-bit signed integer, `uint` a 64-bit unsigned one. They are
  embedded in `Int`/`Nat`; wrap-around is written out where an operation of the
  source can overflow (`count--`, `capacity - 1`).
* A run of Go code ends in a value, in a run-time panic, or (for loops whose
  termination depends on the input) outside the step budget of the model.
* The bit operations of `unicode/utf8` are written arithmetically: `x >> k` is
  `x / 2^k`, `x & (2^k - 1)` is `x % 2^k`, and `a | b` on disjoint bit ranges is
  `a + b`.
-/

namespace Lo

/-! ## Data model -/

/-- A Go string: an immutable byte sequence, not necessarily well-formed UTF-8. -/
abbrev GoString := List UInt8

/-- The result of running a piece of Go code. -/
inductive Outcome (α : Type) where
  | ok (a : α) : Outcome α
  | panic (msg : String) : Outcome α
  | timeout : Outcome α
  deriving DecidableEq, Repr

namespace Outcome

/-- Sequencing: a panic or an exhausted step budget ends the run. -/
def bind {α β : Type} (x : Outcome α) (f : α → Outcome β) : Outcome β :=
  match x with
  | ok a => f a
  | panic m => panic m
  | timeout => timeout

end Outcome

instance : Monad Outcome where
  pure := Outcome.ok
  bind := Outcome.bind

/-- The byte `n mod 256`. -/
def byte (n : Nat) : UInt8 := UInt8.ofNat n

/-- The value of `s[i]` as a number; callers stay inside `len(s)`. -/
def byteAt (s : GoString) (i : Nat) : Nat := (s.getD i 0).toNat

/-- Slice expression `s[lo:]`; panics outside `0 <= lo <= len(s)`. -/
def sliceFrom (s : GoString) (lo : Int) : Outcome GoString :=
  if 0 ≤ lo ∧ lo ≤ (s.length : Int) then Outcome.ok (s.drop lo.toNat)
  else Outcome.panic "slice bounds out of range"

/-- Slice expression `s[:hi]`; panics outside `0 <= hi <= len(s)`. -/
def sliceTo (s : GoString) (hi : Int) : Outcome GoString :=
  if 0 ≤ hi ∧ hi ≤ (s.length : Int) then Outcome.ok (s.take hi.toNat)
  else Outcome.panic "slice bounds out of range"

/-- Slice expression `s[lo:hi]`; panics outside `0 <= lo <= hi <= len(s)`. -/
def slice (s : GoString) (lo hi : Int) : Outcome GoString :=
  if 0 ≤ lo ∧ lo ≤ hi ∧ hi ≤ (s.length : Int) then
    Outcome.ok ((s.take hi.toNat).drop lo.toNat)
  else Outcome.panic "slice bounds out of range"

/-! ## `unicode/utf8` -/

/-- `utf8.RuneError`, U+FFFD. -/
def RuneError : Nat := 0xFFFD

/-- `utf8.MaxRune`, U+10FFFF. -/
def MaxRune : Nat := 0x10FFFF

/-- `utf8.ValidRune`: a Unicode scalar value (in range, not a surrogate). -/
def ValidRune (r : Nat) : Bool :=
  (r < 0xD800) || (0xDFFF < r && r ≤ MaxRune)

/-- `utf8.AppendRune` applied to `uint32(r)`: the UTF-8 encoding of `r`, and the
encoding of U+FFFD for surrogates and values above `MaxRune`. -/
def encodeRune (r : Nat) : GoString :=
  if r ≤ 0x7F then [byte r]
  else if r ≤ 0x7FF then [byte (0xC0 + r / 64), byte (0x80 + r % 64)]
  else if r < 0xD800 ∨ (0xDFFF < r ∧ r ≤ 0xFFFF) then
    [byte (0xE0 + r / 4096), byte (0x80 + r / 64 % 64), byte (0x80 + r % 64)]
  else if 0xFFFF < r ∧ r ≤ MaxRune then
    [byte (0xF0 + r / 262144), byte (0x80 + r / 4096 % 64), byte (0x80 + r / 64 % 64),
      byte (0x80 + r % 64)]
  else [0xEF, 0xBF, 0xBD]

/-- The conversion `string([]rune)`: every rune encoded in turn. -/
def encodeRunes (rs : List Nat) : GoString := rs.flatMap encodeRune

/-- `utf8.RuneLen`: the number of bytes of the encoding, `-1` for a value that is
not valid to encode. -/
def RuneLen (r : Int) : Int :=
  if r < 0 then -1
  else if r ≤ 0x7F then 1
  else if r ≤ 0x7FF then 2
  else if 0xD800 ≤ r ∧ r ≤ 0xDFFF then -1
  else if r ≤ 0xFFFF then 3
  else if r ≤ 0x10FFFF then 4
  else -1

/-- Table `first` of `unicode/utf8`, low three bits: the length of the sequence a
lead byte announces; `0` for a byte that starts no multi-byte sequence. -/
def seqLen (b : Nat) : Nat :=
  if 0xC2 ≤ b ∧ b ≤ 0xDF then 2
  else if 0xE0 ≤ b ∧ b ≤ 0xEF then 3
  else if 0xF0 ≤ b ∧ b ≤ 0xF4 then 4
  else 0

/-- Table `acceptRanges` of `unicode/utf8`: lowest second byte after lead `b`. -/
def acceptLo (b : Nat) : Nat :=
  if b = 0xE0 then 0xA0 else if b = 0xF0 then 0x90 else 0x80

/-- Table `acceptRanges` of `unicode/utf8`: highest second byte after lead `b`. -/
def acceptHi (b : Nat) : Nat :=
  if b = 0xED then 0x9F else if b = 0xF4 then 0x8F else 0xBF

/-- `utf8.DecodeRuneInString`: the first rune of `s` and its width in bytes;
`(RuneError, 0)` on the empty string and `(RuneError, 1)` on an encoding error. -/
def DecodeRuneInString (s : GoString) : Nat × Nat :=
  let n := s.length
  if n < 1 then (RuneError, 0) else
  let s0 := byteAt s 0
  if s0 < 0x80 then (s0, 1) else
  let sz := seqLen s0
  if sz = 0 then (RuneError, 1) else
  if n < sz then (RuneError, 1) else
  let s1 := byteAt s 1
  if s1 < acceptLo s0 ∨ acceptHi s0 < s1 then (RuneError, 1) else
  if sz ≤ 2 then (s0 % 32 * 64 + s1 % 64, 2) else
  let s2 := byteAt s 2
  if s2 < 0x80 ∨ 0xBF < s2 then (RuneError, 1) else
  if sz ≤ 3 then (s0 % 16 * 4096 + s1 % 64 * 64 + s2 % 64, 3) else
  let s3 := byteAt s 3
  if s3 < 0x80 ∨ 0xBF < s3 then (RuneError, 1) else
  (s0 % 8 * 262144 + s1 % 64 * 4096 + s2 % 64 * 64 + s3 % 64, 4)

/-- `utf8.RuneStart`: the byte is not a continuation byte `10xxxxxx`. -/
def RuneStart (b : Nat) : Bool := !(0x80 ≤ b && b ≤ 0xBF)

/-- The scan of `utf8.DecodeLastRuneInString`,
`for start--; start >= lim; start-- { if RuneStart(s[start]) { break } }`,
entered after the first `start--`. At most `UTFMax - 1` positions lie between
`lim` and `end - 2`, so a budget of `UTFMax` steps lets the loop reach its exit. -/
def scanStart (s : GoString) (lim : Int) : Nat → Int → Int
  | 0, start => start
  | fuel + 1, start =>
    if lim ≤ start then
      if RuneStart (byteAt s start.toNat) then start
      else scanStart s lim fuel (start - 1)
    else start

/-- `utf8.DecodeLastRuneInString`: the last rune of `s` and its width in bytes;
`(RuneError, 0)` on the empty string and `(RuneError, 1)` on an encoding error. -/
def DecodeLastRuneInString (s : GoString) : Nat × Nat :=
  let n := s.length
  if n = 0 then (RuneError, 0) else
  let r := byteAt s (n - 1)
  if r < 0x80 then (r, 1) else
  let lim : Int := if ((n : Int) - 4) < 0 then 0 else (n : Int) - 4
  let start := scanStart s lim 4 ((n : Int) - 1 - 1)
  let start := if start < 0 then 0 else start
  let d := DecodeRuneInString (s.drop start.toNat)
  if start + (d.2 : Int) ≠ (n : Int) then (RuneError, 1) else d

/-- The iterations of `for i, r := range s` from byte position `i` on: the byte
index, the rune and the width of every decoding step. An invalid byte is one
step of width 1 yielding `RuneError`. -/
def rangeLoop : Nat → Nat → GoString → List (Nat × Nat × Nat)
  | 0, _, _ => []
  | fuel + 1, i, s =>
    if s = [] then []
    else
      let d := DecodeRuneInString s
      (i, d.1, d.2) :: rangeLoop fuel (i + d.2) (s.drop d.2)

/-- The decoding steps of the whole string; each step consumes at least one
byte, so `len(s)` steps are enough. -/
def rangeSteps (s : GoString) : List (Nat × Nat × Nat) := rangeLoop s.length 0 s

/-- The pairs `(i, r)` that `for i, r := range s` iterates over. -/
def rangeStr (s : GoString) : List (Nat × Nat) :=
  (rangeSteps s).map (fun t => (t.1, t.2.1))

/-- The conversion `[]rune(s)`. -/
def toRunes (s : GoString) : List Nat := (rangeSteps s).map (fun t => t.2.1)

/-- `utf8.RuneCountInString`. -/
def RuneCountInString (s : GoString) : Nat := (rangeSteps s).length

/-- `utf8.ValidString`: no decoding step reports an encoding error, which
`unicode/utf8` signals as `RuneError` with width 1. -/
def ValidString (s : GoString) : Bool :=
  (rangeSteps s).all (fun t => !(t.2.1 == RuneError && t.2.2 == 1))

/-! ## `strings` -/

/-- `strings.ReplaceAll(s, "\x00", "")`: every NUL byte removed. -/
def removeNul (s : GoString) : GoString := s.filter (fun b => b != 0)

/-- `strings.Builder.WriteRune(r)` for a Go `rune` (an `int32`): the bytes
appended, `utf8.AppendRune` on `uint32(r)`. -/
def WriteRune (r : Int) : GoString := encodeRune (r % 4294967296).toNat

/-! ## `Substring` (string.go, lines 103-191) -/

/-- The loop of the `offset > 0` case,
`for i, r := range str { if offset--; offset == 0 { str = str[i+utf8.RuneLen(r):]; break } }`,
over the remaining iterations; the result is `(str, offset)` after the loop.
`offset` is positive on entry, so `offset--` cannot overflow. -/
def skipRunes : List (Nat × Nat) → GoString → Int → Outcome (GoString × Int)
  | [], str, offset => Outcome.ok (str, offset)
  | (i, r) :: rest, str, offset =>
    let offset := offset - 1
    if offset = 0 then
      (sliceFrom str ((i : Int) + RuneLen (r : Int))).bind (fun s => Outcome.ok (s, offset))
    else skipRunes rest str offset

/-- The loop of the `offset < -len(str), offset == 0` case,
`for i := range str { if length == 0 { return str[:i] }; length-- }; return str`,
over the remaining iterations. -/
def takeRunes : List (Nat × Nat) → GoString → Nat → Outcome GoString
  | [], str, _ => Outcome.ok str
  | (i, _) :: rest, str, length =>
    if length = 0 then sliceTo str (i : Int)
    else takeRunes rest str (length - 1)

/-- The statement `count--` on a `uint`: wraps around at zero. -/
def decUint (count : Nat) : Nat := if count = 0 then 2 ^ 64 - 1 else count - 1

/-- The closure `backwardPos` of `substring`: the loop
`for { _, i := utf8.DecodeLastRuneInString(str[:end]); end -= i;
 if count--; count == 0 || end == 0 { return end } }` with a step budget. -/
def backwardPosLoop (str : GoString) : Nat → Int → Nat → Outcome Int
  | 0, _, _ => Outcome.timeout
  | fuel + 1, pos, count =>
    (sliceTo str pos).bind (fun pre =>
      let i := (DecodeLastRuneInString pre).2
      let pos := pos - (i : Int)
      let count := decUint count
      if count = 0 ∨ pos = 0 then Outcome.ok pos
      else backwardPosLoop str fuel pos count)

/-- The closure `backwardPos(end, count)`. Every iteration that does not return
lowers `end` by at least one, so `len(str) + 1` steps are enough. -/
def backwardPos (str : GoString) (pos : Int) (count : Nat) : Outcome Int :=
  backwardPosLoop str (str.length + 1) pos count

/-- The unexported `substring` (lines 122-191). -/
def substring (str : GoString) (offset : Int) (length : Nat) : Outcome GoString :=
  if length = 0 ∨ offset ≥ (str.length : Int) then Outcome.ok []
  else if offset > 0 then
    (skipRunes (rangeStr str) str offset).bind (fun p =>
      let str := p.1
      let offset := p.2
      if offset ≠ 0 then Outcome.ok []
      else if str.length ≤ length then Outcome.ok str
      else takeRunes (rangeStr str) str length)
  else if offset < -(str.length : Int) ∨ offset = 0 then
    takeRunes (rangeStr str) str length
  else
    let offset : Nat := (-offset).toNat
    if offset ≤ length then
      (backwardPos str (str.length : Int) offset).bind (fun start => sliceFrom str start)
    else
      (backwardPos str (str.length : Int) (offset - length)).bind (fun pos =>
        (backwardPos str pos length).bind (fun start => slice str start pos))

/-- The repair step of `Substring` (lines 112-116):
`if !utf8.ValidString(str) { str = T([]rune(str)) }`. -/
def repair (str : GoString) : GoString :=
  if !ValidString str then encodeRunes (toRunes str) else str

/-- The exported `Substring` (lines 109-120). -/
def Substring (str : GoString) (offset : Int) (length : Nat) : Outcome GoString :=
  (substring str offset length).bind (fun s => Outcome.ok (removeNul (repair s)))

/-! ## `RandomString` (string.go, lines 30-101) -/

/-- The constant `maximumCapacity = math.MaxInt>>1 + 1` for a 64-bit `int`. -/
def maximumCapacity : Int := (2 ^ 63 - 1) / 2 + 1

/-- Wrap-around of 64-bit signed arithmetic. -/
def wrapInt (x : Int) : Int := (x + 2 ^ 63) % 2 ^ 64 - 2 ^ 63

/-- The function `nearestPowerOfTwo` (lines 87-101). `>>` on a signed `int` is the
arithmetic shift and `|` the two's-complement or; only `capacity - 1` can
overflow. -/
def nearestPowerOfTwo (capacity : Int) : Int :=
  let n := wrapInt (capacity - 1)
  let n := Int.lor n (n >>> (1 : Nat))
  let n := Int.lor n (n >>> (2 : Nat))
  let n := Int.lor n (n >>> (4 : Nat))
  let n := Int.lor n (n >>> (8 : Nat))
  let n := Int.lor n (n >>> (16 : Nat))
  if n < 0 then 1
  else if n ≥ maximumCapacity then maximumCapacity
  else n + 1

/-- The binary logarithm rounded down, by repeated halving. -/
def ilog2 : Nat → Nat → Nat
  | 0, _ => 0
  | fuel + 1, x => if 2 ≤ x then ilog2 fuel (x / 2) + 1 else 0

/-- The expression `int(math.Log2(float64(x)))` of line 59 for `x >= 1`. The
floating-point computation is replaced by its value: `math.Log2` splits its
argument with `Frexp` and returns the exponent exactly on a power of two, and
`float64(x)` is exact below `2^53`, where the conversion to `int` rounds the
logarithm down. -/
def log2Int (x : Int) : Nat := ilog2 64 x.toNat

/-- The loop `for i := 0; i < size; i++ { sb.WriteRune(charset[0]) }` of the
single-character case, with `n` iterations left. -/
def writeRepeated (c : Int) : Nat → GoString → GoString
  | 0, sb => sb
  | n + 1, sb => writeRepeated c n (sb ++ WriteRune c)

/-- The sampling loop of lines 67-82 with a step budget. `rand k` is the value
of the `k`-th call of `xrand.Int64()`; the state is `i`, `cache`, `remain`, the
number `k` of values drawn so far and the builder contents `sb`. The result is
the string built and the number of values drawn. -/
def sampleLoop (rand : Nat → Nat) (charset : List Int) (letterIDBits : Nat)
    (letterIDMask : Nat) (letterIDMax : Int) :
    Nat → Int → Nat → Int → Nat → GoString → Outcome (GoString × Nat)
  | 0, _, _, _, _, _ => Outcome.timeout
  | fuel + 1, i, cache, remain, k, sb =>
    if 0 ≤ i then
      let cache1 := if remain = 0 then rand k else cache
      let k1 := if remain = 0 then k + 1 else k
      let remain1 := if remain = 0 then letterIDMax else remain
      let idx := cache1 &&& letterIDMask
      if idx < charset.length then
        match charset[idx]? with
        | some c =>
          sampleLoop rand charset letterIDBits letterIDMask letterIDMax fuel (i - 1)
            (cache1 >>> letterIDBits) (remain1 - 1) k1 (sb ++ WriteRune c)
        | none => Outcome.panic "index out of range"
      else
        sampleLoop rand charset letterIDBits letterIDMask letterIDMax fuel i
          (cache1 >>> letterIDBits) (remain1 - 1) k1 sb
    else Outcome.ok (sb, k)

/-- The function `RandomString` (lines 35-84). `rand` is the stream of values
returned by `xrand.Int64()` and `fuel` the step budget of the sampling loop;
the result is the string and the number of random values consumed.
`letterIDBits` is at most 62, so `1<<letterIDBits - 1` does not overflow. -/
def RandomString (rand : Nat → Nat) (fuel : Nat) (size : Int) (charset : List Int) :
    Outcome (GoString × Nat) :=
  if size ≤ 0 then Outcome.panic "lo.RandomString: size must be greater than 0"
  else if charset.length = 0 then
    Outcome.panic "lo.RandomString: charset must not be empty"
  else if charset.length = 1 then
    match charset[0]? with
    | some c => Outcome.ok (writeRepeated c size.toNat [], 0)
    | none => Outcome.panic "index out of range"
  else
    let letterIDBits := log2Int (nearestPowerOfTwo (charset.length : Int))
    let letterIDMask := 2 ^ letterIDBits - 1
    if letterIDBits = 0 then Outcome.panic "integer divide by zero"
    else
      let letterIDMax : Int := 63 / (letterIDBits : Int)
      sampleLoop rand charset letterIDBits letterIDMask letterIDMax fuel (size - 1)
        (rand 0) letterIDMax 1 []

/-! ## Reference descriptions used in the statements -/

/-- The decoding steps of the encoding of `rs` placed at byte position `i`:
the byte index, the rune and the width of every rune. -/
def stepsOf : Nat → List Nat → List (Nat × Nat × Nat)
  | _, [] => []
  | i, r :: rs => (i, r, (encodeRune r).length) :: stepsOf (i + (encodeRune r).length) rs

/-- Every rune of the list is a Unicode scalar value. -/
def AllValid (rs : List Nat) : Prop := ∀ r ∈ rs, ValidRune r = true

instance (rs : List Nat) : Decidable (AllValid rs) := by
  unfold AllValid
  infer_instance

/-- The runes that `substring` selects from a well-formed string with runes `rs`
and `blen` bytes: the case analysis of the source with every loop replaced by
the list operation it computes. Subtraction is truncated at zero. -/
def selectRunes (rs : List Nat) (blen : Nat) (offset : Int) (length : Nat) : List Nat :=
  if length = 0 ∨ offset ≥ (blen : Int) then []
  else if offset > 0 then (rs.drop offset.toNat).take length
  else if offset < -(blen : Int) ∨ offset = 0 then rs.take length
  else if (-offset).toNat ≤ length then rs.drop (rs.length - (-offset).toNat)
  else
    (rs.take (rs.length - ((-offset).toNat - length))).drop
      (rs.length - ((-offset).toNat - length) - length)

/-- `utf8.ValidRune` on a Go `rune` (an `int32`): non-negative and a Unicode
scalar value. -/
def ValidRuneInt (c : Int) : Bool := decide (0 ≤ c) && ValidRune c.toNat

/-- The `n`-th chunk of the random stream `rand`, in the words of the
description of the sampler: with `maxDraws` fields of `bits` bits taken from
every value, least significant first, chunk `n` is field `n % maxDraws` of the
value `rand (n / maxDraws)`. -/
def chunkAt (rand : Nat → Nat) (bits maxDraws n : Nat) : Nat :=
  (rand (n / maxDraws) >>> (n % maxDraws * bits)) &&& (2 ^ bits - 1)

/-- The elements of the charset picked by the first `size` accepted chunks
(those below `len(charset)`) among the first `m` chunks, in order. -/
def pickedRunes (rand : Nat → Nat) (charset : List Int) (size m : Nat) : List Int :=
  let bits := log2Int (nearestPowerOfTwo (charset.length : Int))
  let maxDraws := 63 / bits
  ((((List.range m).map (chunkAt rand bits maxDraws)).filter
    (fun c => decide (c < charset.length))).take size).filterMap (fun c => charset[c]?)

/-- The number of accepted chunks among the first `m` chunks. -/
def acceptedCount (rand : Nat → Nat) (charset : List Int) (m : Nat) : Nat :=
  let bits := log2Int (nearestPowerOfTwo (charset.length : Int))
  let maxDraws := 63 / bits
  (((List.range m).map (chunkAt rand bits maxDraws)).filter
    (fun c => decide (c < charset.length))).length

/-! ## `ChunkString` (string.go, lines 193-221) -/

/-- The loop of `ChunkString`,
`for i := range str { if currentLen == size { chunks = append(chunks, str[currentStart:i]);
 currentLen = 0; currentStart = i }; currentLen++ }`, over the remaining
iterations, followed by `chunks = append(chunks, str[currentStart:])`. -/
def chunkLoop (str : GoString) (size : Int) :
    List (Nat × Nat) → List GoString → Int → Int → Outcome (List GoString)
  | [], chunks, _, currentStart =>
    (sliceFrom str currentStart).bind (fun c => Outcome.ok (chunks ++ [c]))
  | (i, _) :: rest, chunks, currentLen, currentStart =>
    if currentLen = size then
      (slice str currentStart (i : Int)).bind (fun c =>
        chunkLoop str size rest (chunks ++ [c]) (0 + 1) (i : Int))
    else chunkLoop str size rest chunks (currentLen + 1) currentStart

/-- The function `ChunkString` (lines 199-221). The capacity given to `make` has
no effect on the result. -/
def ChunkString (str : GoString) (size : Int) : Outcome (List GoString) :=
  if size ≤ 0 then Outcome.panic "lo.ChunkString: size must be greater than 0"
  else if size ≥ (str.length : Int) then Outcome.ok [str]
  else chunkLoop str size (rangeStr str) [] 0 0

/-! ## `strings.TrimSpace` and `Ellipsis` (string.go, lines 297-318) -/

/-- `unicode.IsSpace`: the Unicode property White_Space. -/
def isSpace (r : Nat) : Bool :=
  (0x09 ≤ r && r ≤ 0x0D) || r == 0x20 || r == 0x85 || r == 0xA0 || r == 0x1680 ||
    (0x2000 ≤ r && r ≤ 0x200A) || r == 0x2028 || r == 0x2029 || r == 0x202F ||
    r == 0x205F || r == 0x3000

/-- `indexFunc(s, unicode.IsSpace, false)` of package `strings`, over the
iterations of `for i, r := range s`: the index of the first rune that is not
white space, `-1` if there is none. -/
def indexNotSpace : List (Nat × Nat) → Int
  | [] => -1
  | (i, r) :: rest => if isSpace r = false then (i : Int) else indexNotSpace rest

/-- `strings.TrimLeftFunc(s, unicode.IsSpace)`. -/
def TrimLeftSpace (s : GoString) : GoString :=
  let i := indexNotSpace (rangeStr s)
  if i = -1 then [] else s.drop i.toNat

/-- `lastIndexFunc(s, unicode.IsSpace, false)` of package `strings`, the loop
`for i := len(s); i > 0; { r, size := utf8.DecodeLastRuneInString(s[0:i]); i -= size;
 if !unicode.IsSpace(r) { return i } }; return -1` from position `i` on. Every
iteration lowers `i`, so `len(s) + 1` steps are enough. -/
def lastIndexNotSpace (s : GoString) : Nat → Nat → Int
  | 0, _ => -1
  | fuel + 1, i =>
    if 0 < i then
      let d := DecodeLastRuneInString (s.take i)
      if isSpace d.1 = false then ((i - d.2 : Nat) : Int)
      else lastIndexNotSpace s fuel (i - d.2)
    else -1

/-- `strings.TrimRightFunc(s, unicode.IsSpace)`. -/
def TrimRightSpace (s : GoString) : GoString :=
  let i := lastIndexNotSpace s (s.length + 1) s.length
  if 0 ≤ i ∧ 0x80 ≤ byteAt s i.toNat then
    s.take (i.toNat + (DecodeRuneInString (s.drop i.toNat)).2)
  else s.take (i + 1).toNat

/-- `strings.TrimSpace`: white space removed at both ends. The function has a
fast path for ASCII bytes; its result is that of
`TrimRightFunc(TrimLeftFunc(s, unicode.IsSpace), unicode.IsSpace)`, which it
calls as soon as it meets a byte outside ASCII. -/
def TrimSpace (s : GoString) : GoString := TrimRightSpace (TrimLeftSpace s)

/-- The constant `ellipsis = "..."` of `Ellipsis`. -/
def ellipsis : GoString := [0x2E, 0x2E, 0x2E]

/-- The loop of `Ellipsis`,
`for i := range str { if length == len(ellipsis) { cutPosition = i };
 if length--; length < 0 { return strings.TrimSpace(str[:cutPosition]) + ellipsis } }`,
over the remaining iterations, followed by `return str`. -/
def ellipsisLoop (str : GoString) : List (Nat × Nat) → Int → Int → Outcome GoString
  | [], _, _ => Outcome.ok str
  | (i, _) :: rest, length, cutPosition =>
    let cutPosition := if length = (ellipsis.length : Int) then (i : Int) else cutPosition
    let length := wrapInt (length - 1)
    if length < 0 then
      (sliceTo str cutPosition).bind (fun p => Outcome.ok (TrimSpace p ++ ellipsis))
    else ellipsisLoop str rest length cutPosition

/-- The function `Ellipsis` (lines 301-318). -/
def Ellipsis (str : GoString) (length : Int) : Outcome GoString :=
  ellipsisLoop (TrimSpace str) (rangeStr (TrimSpace str)) length 0

/-- The byte position reached after `j` decoding steps of `s` (the end of the
string if it has fewer steps): the boundaries at which `range` cuts `s` into
code points. -/
def runeBoundary : Nat → GoString → Nat
  | 0, _ => 0
  | j + 1, s =>
    if s = [] then 0
    else (DecodeRuneInString s).2 + runeBoundary j (s.drop (DecodeRuneInString s).2)

/-- The bytes of a Lean string literal, for writing examples. -/
def utf8 (s : String) : GoString := encodeRunes (s.data.map Char.toNat)

/-! ## Bytes and single decoding steps -/

theorem byte_toNat (n : Nat) : (byte n).toNat = n % 256 := rfl

theorem toNat_lt (b : UInt8) : b.toNat < 256 := UInt8.toNat_lt b

theorem byte_of_toNat (b : UInt8) : byte b.toNat = b := by
  apply UInt8.ext
  rw [byte_toNat]
  exact Nat.mod_eq_of_lt (toNat_lt b)

theorem byteAt_cons_zero (b : UInt8) (t : GoString) : byteAt (b :: t) 0 = b.toNat := rfl

theorem byteAt_cons_succ (b : UInt8) (t : GoString) (i : Nat) :
    byteAt (b :: t) (i + 1) = byteAt t i := rfl

theorem decode_nil : DecodeRuneInString [] = (RuneError, 0) := rfl

theorem decode_ascii (a : UInt8) (t : GoString) (h : a.toNat < 0x80) :
    DecodeRuneInString (a :: t) = (a.toNat, 1) := by
  unfold DecodeRuneInString
  rw [if_neg (by simp), byteAt_cons_zero]
  simp only [h, if_true]

theorem decode_two (a b : UInt8) (t : GoString) (h1 : 0xC2 ≤ a.toNat) (h2 : a.toNat ≤ 0xDF)
    (h3 : 0x80 ≤ b.toNat) (h4 : b.toNat ≤ 0xBF) :
    DecodeRuneInString (a :: b :: t) = (a.toNat % 32 * 64 + b.toNat % 64, 2) := by
  have hs : seqLen a.toNat = 2 := by unfold seqLen; split_ifs <;> omega
  have hlo : acceptLo a.toNat = 0x80 := by unfold acceptLo; split_ifs <;> omega
  have hhi : acceptHi a.toNat = 0xBF := by unfold acceptHi; split_ifs <;> omega
  unfold DecodeRuneInString
  simp only [byteAt_cons_zero, byteAt_cons_succ, hs, hlo, hhi, List.length_cons]
  rw [if_neg (by omega), if_neg (by omega), if_neg (by omega), if_neg (by omega),
    if_neg (by omega), if_pos (by omega)]

theorem decode_three (a b c : UInt8) (t : GoString) (h1 : 0xE0 ≤ a.toNat) (h2 : a.toNat ≤ 0xEF)
    (h3 : acceptLo a.toNat ≤ b.toNat) (h4 : b.toNat ≤ acceptHi a.toNat)
    (h5 : 0x80 ≤ c.toNat) (h6 : c.toNat ≤ 0xBF) :
    DecodeRuneInString (a :: b :: c :: t) =
      (a.toNat % 16 * 4096 + b.toNat % 64 * 64 + c.toNat % 64, 3) := by
  have hs : seqLen a.toNat = 3 := by unfold seqLen; split_ifs <;> omega
  unfold DecodeRuneInString
  simp only [byteAt_cons_zero, byteAt_cons_succ, hs, List.length_cons]
  rw [if_neg (by omega), if_neg (by omega), if_neg (by omega), if_neg (by omega),
    if_neg (by omega), if_neg (by omega), if_neg (by omega), if_pos (by omega)]

theorem decode_four (a b c d : UInt8) (t : GoString) (h1 : 0xF0 ≤ a.toNat) (h2 : a.toNat ≤ 0xF4)
    (h3 : acceptLo a.toNat ≤ b.toNat) (h4 : b.toNat ≤ acceptHi a.toNat)
    (h5 : 0x80 ≤ c.toNat) (h6 : c.toNat ≤ 0xBF) (h7 : 0x80 ≤ d.toNat) (h8 : d.toNat ≤ 0xBF) :
    DecodeRuneInString (a :: b :: c :: d :: t) =
      (a.toNat % 8 * 262144 + b.toNat % 64 * 4096 + c.toNat % 64 * 64 + d.toNat % 64, 4) := by
  have hs : seqLen a.toNat = 4 := by unfold seqLen; split_ifs <;> omega
  unfold DecodeRuneInString
  simp only [byteAt_cons_zero, byteAt_cons_succ, hs, List.length_cons]
  rw [if_neg (by omega), if_neg (by omega), if_neg (by omega), if_neg (by omega),
    if_neg (by omega), if_neg (by omega), if_neg (by omega), if_neg (by omega),
    if_neg (by omega)]

theorem seqLen_ne_one (b : Nat) : seqLen b ≠ 1 := by
  unfold seqLen; split_ifs <;> omega

/-- Every decoding step reports an error with width 1 or returns a width between
1 and 4 that fits in the string. -/
theorem decode_width (s : GoString) (hs : s ≠ []) :
    1 ≤ (DecodeRuneInString s).2 ∧ (DecodeRuneInString s).2 ≤ s.length := by
  unfold DecodeRuneInString
  have hl : 1 ≤ s.length := by
    cases s with
    | nil => exact absurd rfl hs
    | cons a t => simp
  have h1 := seqLen_ne_one (byteAt s 0)
  simp only []
  split_ifs <;> simp only [] <;> omega

theorem acceptLo_le (a b : Nat) (h : acceptLo a ≤ b) :
    0x80 ≤ b ∧ (a = 0xE0 → 0xA0 ≤ b) ∧ (a = 0xF0 → 0x90 ≤ b) := by
  unfold acceptLo at h; split_ifs at h <;> omega

theorem le_acceptHi (a b : Nat) (h : b ≤ acceptHi a) :
    b ≤ 0xBF ∧ (a = 0xED → b ≤ 0x9F) ∧ (a = 0xF4 → b ≤ 0x8F) := by
  unfold acceptHi at h; split_ifs at h <;> omega

theorem acceptLo_le_of (a b : Nat) (h1 : 0x80 ≤ b) (h2 : a = 0xE0 → 0xA0 ≤ b)
    (h3 : a = 0xF0 → 0x90 ≤ b) : acceptLo a ≤ b := by
  unfold acceptLo; split_ifs <;> omega

theorem le_acceptHi_of (a b : Nat) (h1 : b ≤ 0xBF) (h2 : a = 0xED → b ≤ 0x9F)
    (h3 : a = 0xF4 → b ≤ 0x8F) : b ≤ acceptHi a := by
  unfold acceptHi; split_ifs <;> omega

theorem seqLen_cases (b : Nat) :
    (seqLen b = 0 ∧ ¬(0xC2 ≤ b ∧ b ≤ 0xF4)) ∨ (seqLen b = 2 ∧ 0xC2 ≤ b ∧ b ≤ 0xDF) ∨
    (seqLen b = 3 ∧ 0xE0 ≤ b ∧ b ≤ 0xEF) ∨ (seqLen b = 4 ∧ 0xF0 ≤ b ∧ b ≤ 0xF4) := by
  unfold seqLen; split_ifs <;> omega

theorem validRune_iff (r : Nat) :
    ValidRune r = true ↔ (r < 0xD800 ∨ (0xDFFF < r ∧ r ≤ 0x10FFFF)) := by
  simp [ValidRune, MaxRune]

theorem encode_one (r : Nat) (h : r ≤ 0x7F) : encodeRune r = [byte r] := by
  unfold encodeRune; rw [if_pos h]

theorem encode_two (r : Nat) (h1 : 0x7F < r) (h2 : r ≤ 0x7FF) :
    encodeRune r = [byte (0xC0 + r / 64), byte (0x80 + r % 64)] := by
  unfold encodeRune; rw [if_neg (by omega), if_pos h2]

theorem encode_three (r : Nat) (h1 : 0x7FF < r) (h2 : r < 0xD800 ∨ (0xDFFF < r ∧ r ≤ 0xFFFF)) :
    encodeRune r =
      [byte (0xE0 + r / 4096), byte (0x80 + r / 64 % 64), byte (0x80 + r % 64)] := by
  unfold encodeRune; rw [if_neg (by omega), if_neg (by omega), if_pos h2]

theorem encode_four (r : Nat) (h1 : 0xFFFF < r) (h2 : r ≤ 0x10FFFF) :
    encodeRune r =
      [byte (0xF0 + r / 262144), byte (0x80 + r / 4096 % 64), byte (0x80 + r / 64 % 64),
        byte (0x80 + r % 64)] := by
  unfold encodeRune
  rw [if_neg (by omega), if_neg (by omega), if_neg (by omega), if_pos (by simp [MaxRune]; omega)]

theorem encode_invalid (r : Nat) (h : ValidRune r = false) : encodeRune r = [0xEF, 0xBF, 0xBD] := by
  have h1 : ¬ (r < 0xD800 ∨ (0xDFFF < r ∧ r ≤ 0x10FFFF)) := by
    rw [← validRune_iff]; simp [h]
  unfold encodeRune
  rw [if_neg (by omega), if_neg (by omega), if_neg (by omega), if_neg (by simp [MaxRune]; omega)]

/-- Decoding undoes encoding: the first rune of `encodeRune r ++ t` is `r`. -/
theorem decode_encode (r : Nat) (t : GoString) (hv : ValidRune r = true) :
    DecodeRuneInString (encodeRune r ++ t) = (r, (encodeRune r).length) := by
  rw [validRune_iff] at hv
  by_cases h1 : r ≤ 0x7F
  · rw [encode_one r h1, List.singleton_append, decode_ascii _ _ (by rw [byte_toNat]; omega),
      byte_toNat]
    simp only [List.length_singleton, Prod.mk.injEq, and_true]; omega
  by_cases h2 : r ≤ 0x7FF
  · rw [encode_two r (by omega) h2]
    simp only [List.cons_append, List.nil_append]
    rw [decode_two _ _ _ (by rw [byte_toNat]; omega) (by rw [byte_toNat]; omega)
      (by rw [byte_toNat]; omega) (by rw [byte_toNat]; omega)]
    simp only [byte_toNat, List.length_cons, List.length_nil, Prod.mk.injEq, and_true]; omega
  by_cases h3 : r ≤ 0xFFFF
  · rw [encode_three r (by omega) (by omega)]
    simp only [List.cons_append, List.nil_append]
    rw [decode_three _ _ _ _ (by rw [byte_toNat]; omega) (by rw [byte_toNat]; omega)
      (by simp only [byte_toNat]; apply acceptLo_le_of <;> omega)
      (by simp only [byte_toNat]; apply le_acceptHi_of <;> omega)
      (by rw [byte_toNat]; omega) (by rw [byte_toNat]; omega)]
    simp only [byte_toNat, List.length_cons, List.length_nil, Prod.mk.injEq, and_true]; omega
  · rw [encode_four r (by omega) (by omega)]
    simp only [List.cons_append, List.nil_append]
    rw [decode_four _ _ _ _ _ (by rw [byte_toNat]; omega) (by rw [byte_toNat]; omega)
      (by simp only [byte_toNat]; apply acceptLo_le_of <;> omega)
      (by simp only [byte_toNat]; apply le_acceptHi_of <;> omega)
      (by rw [byte_toNat]; omega) (by rw [byte_toNat]; omega)
      (by rw [byte_toNat]; omega) (by rw [byte_toNat]; omega)]
    simp only [byte_toNat, List.length_cons, List.length_nil, Prod.mk.injEq, and_true]; omega

theorem byteAt_nil (i : Nat) : byteAt [] i = 0 := by
  cases i <;> rfl

theorem dec_enc_two (a b : UInt8) (h1 : 0xC2 ≤ a.toNat) (h2 : a.toNat ≤ 0xDF)
    (h3 : 0x80 ≤ b.toNat) (h4 : b.toNat ≤ 0xBF) :
    ValidRune (a.toNat % 32 * 64 + b.toNat % 64) = true ∧
      encodeRune (a.toNat % 32 * 64 + b.toNat % 64) = [a, b] := by
  constructor
  · rw [validRune_iff]; omega
  · rw [encode_two _ (by omega) (by omega)]
    congr 1
    · apply UInt8.ext; rw [byte_toNat]; omega
    · congr 1; apply UInt8.ext; rw [byte_toNat]; omega

theorem dec_enc_three (a b c : UInt8) (h1 : 0xE0 ≤ a.toNat) (h2 : a.toNat ≤ 0xEF)
    (h3 : acceptLo a.toNat ≤ b.toNat) (h4 : b.toNat ≤ acceptHi a.toNat)
    (h5 : 0x80 ≤ c.toNat) (h6 : c.toNat ≤ 0xBF) :
    ValidRune (a.toNat % 16 * 4096 + b.toNat % 64 * 64 + c.toNat % 64) = true ∧
      encodeRune (a.toNat % 16 * 4096 + b.toNat % 64 * 64 + c.toNat % 64) = [a, b, c] := by
  have hlo := acceptLo_le _ _ h3
  have hhi := le_acceptHi _ _ h4
  constructor
  · rw [validRune_iff]; omega
  · rw [encode_three _ (by omega) (by omega)]
    congr 1
    · apply UInt8.ext; rw [byte_toNat]; omega
    · congr 1
      · apply UInt8.ext; rw [byte_toNat]; omega
      · congr 1; apply UInt8.ext; rw [byte_toNat]; omega

theorem dec_enc_four (a b c d : UInt8) (h1 : 0xF0 ≤ a.toNat) (h2 : a.toNat ≤ 0xF4)
    (h3 : acceptLo a.toNat ≤ b.toNat) (h4 : b.toNat ≤ acceptHi a.toNat)
    (h5 : 0x80 ≤ c.toNat) (h6 : c.toNat ≤ 0xBF) (h7 : 0x80 ≤ d.toNat) (h8 : d.toNat ≤ 0xBF) :
    ValidRune (a.toNat % 8 * 262144 + b.toNat % 64 * 4096 + c.toNat % 64 * 64 + d.toNat % 64)
        = true ∧
      encodeRune (a.toNat % 8 * 262144 + b.toNat % 64 * 4096 + c.toNat % 64 * 64 + d.toNat % 64)
        = [a, b, c, d] := by
  have hlo := acceptLo_le _ _ h3
  have hhi := le_acceptHi _ _ h4
  constructor
  · rw [validRune_iff]; omega
  · rw [encode_four _ (by omega) (by omega)]
    congr 1
    · apply UInt8.ext; rw [byte_toNat]; omega
    · congr 1
      · apply UInt8.ext; rw [byte_toNat]; omega
      · congr 1
        · apply UInt8.ext; rw [byte_toNat]; omega
        · congr 1; apply UInt8.ext; rw [byte_toNat]; omega

/-- The ways a decoding step reports an encoding error. -/
theorem decode_fail (s : GoString) (hs : s ≠ []) (h0 : 0x80 ≤ byteAt s 0)
    (h : seqLen (byteAt s 0) = 0 ∨ s.length < seqLen (byteAt s 0) ∨
      byteAt s 1 < acceptLo (byteAt s 0) ∨ acceptHi (byteAt s 0) < byteAt s 1 ∨
      (3 ≤ seqLen (byteAt s 0) ∧ (byteAt s 2 < 0x80 ∨ 0xBF < byteAt s 2)) ∨
      (4 ≤ seqLen (byteAt s 0) ∧ (byteAt s 3 < 0x80 ∨ 0xBF < byteAt s 3))) :
    DecodeRuneInString s = (RuneError, 1) := by
  have hl : 1 ≤ s.length := by
    cases s with
    | nil => exact absurd rfl hs
    | cons a t => simp
  unfold DecodeRuneInString
  simp only []
  split_ifs <;> first | rfl | omega

/-- A decoding step either reports an encoding error or reads the encoding of a
valid rune from the front of the string. -/
theorem decode_inv (s : GoString) (hs : s ≠ []) :
    DecodeRuneInString s = (RuneError, 1) ∨
    ∃ r t, ValidRune r = true ∧ s = encodeRune r ++ t ∧
      DecodeRuneInString s = (r, (encodeRune r).length) := by
  rcases s with _ | ⟨a, t⟩
  · exact absurd rfl hs
  by_cases ha : a.toNat < 0x80
  · right
    refine ⟨a.toNat, t, by rw [validRune_iff]; omega, ?_, ?_⟩
    · rw [encode_one _ (by omega), byte_of_toNat]; rfl
    · rw [decode_ascii _ _ ha, encode_one _ (by omega)]; rfl
  have ha0 : 0x80 ≤ byteAt (a :: t) 0 := by rw [byteAt_cons_zero]; omega
  by_cases hbad : seqLen (byteAt (a :: t) 0) = 0 ∨ (a :: t).length < seqLen (byteAt (a :: t) 0) ∨
      byteAt (a :: t) 1 < acceptLo (byteAt (a :: t) 0) ∨
      acceptHi (byteAt (a :: t) 0) < byteAt (a :: t) 1 ∨
      (3 ≤ seqLen (byteAt (a :: t) 0) ∧ (byteAt (a :: t) 2 < 0x80 ∨ 0xBF < byteAt (a :: t) 2)) ∨
      (4 ≤ seqLen (byteAt (a :: t) 0) ∧ (byteAt (a :: t) 3 < 0x80 ∨ 0xBF < byteAt (a :: t) 3))
  · left; exact decode_fail _ hs ha0 hbad
  right
  simp only [byteAt_cons_zero, byteAt_cons_succ, List.length_cons] at hbad
  rcases seqLen_cases a.toNat with ⟨h0, _⟩ | ⟨h2, hr1, hr2⟩ | ⟨h3, hr1, hr2⟩ | ⟨h4, hr1, hr2⟩
  · omega
  · rcases t with _ | ⟨b, t⟩
    · simp only [List.length_nil] at hbad; omega
    simp only [byteAt_cons_zero] at hbad
    have hlo := acceptLo_le a.toNat b.toNat (by omega)
    have hhi := le_acceptHi a.toNat b.toNat (by omega)
    have hde := dec_enc_two a b hr1 hr2 (by omega) (by omega)
    refine ⟨_, t, hde.1, by rw [hde.2]; rfl, ?_⟩
    rw [decode_two a b t hr1 hr2 (by omega) (by omega), hde.2]; rfl
  · rcases t with _ | ⟨b, _ | ⟨c, t⟩⟩
    · simp only [List.length_nil] at hbad; omega
    · simp only [List.length_cons, List.length_nil] at hbad; omega
    simp only [byteAt_cons_zero, byteAt_cons_succ] at hbad
    have hde := dec_enc_three a b c hr1 hr2 (by omega) (by omega) (by omega) (by omega)
    refine ⟨_, t, hde.1, by rw [hde.2]; rfl, ?_⟩
    rw [decode_three a b c t hr1 hr2 (by omega) (by omega) (by omega) (by omega), hde.2]; rfl
  · rcases t with _ | ⟨b, _ | ⟨c, _ | ⟨d, t⟩⟩⟩
    · simp only [List.length_nil] at hbad; omega
    · simp only [List.length_cons, List.length_nil] at hbad; omega
    · simp only [List.length_cons, List.length_nil] at hbad; omega
    simp only [byteAt_cons_zero, byteAt_cons_succ] at hbad
    have hde := dec_enc_four a b c d hr1 hr2 (by omega) (by omega) (by omega) (by omega)
      (by omega) (by omega)
    refine ⟨_, t, hde.1, by rw [hde.2]; rfl, ?_⟩
    rw [decode_four a b c d t hr1 hr2 (by omega) (by omega) (by omega) (by omega)
      (by omega) (by omega), hde.2]; rfl

/-! ## The last rune of a string -/

theorem byteAt_append_right (p l : GoString) (k : Nat) :
    byteAt (p ++ l) (p.length + k) = byteAt l k := by
  induction p with
  | nil => simp
  | cons a p ih =>
    have : (a :: p).length + k = (p.length + k) + 1 := by simp; omega
    rw [this, List.cons_append, byteAt_cons_succ, ih]

theorem scanStart_hit (s : GoString) (lim : Int) (fuel : Nat) (start : Int) (h1 : lim ≤ start)
    (h2 : RuneStart (byteAt s start.toNat) = true) :
    scanStart s lim (fuel + 1) start = start := by
  simp only [scanStart, h1, h2, if_true]

theorem scanStart_miss (s : GoString) (lim : Int) (fuel : Nat) (start : Int) (h1 : lim ≤ start)
    (h2 : RuneStart (byteAt s start.toNat) = false) :
    scanStart s lim (fuel + 1) start = scanStart s lim fuel (start - 1) := by
  simp only [scanStart, h1, h2, if_true]
  simp

theorem runeStart_true (b : Nat) (h : b < 0x80 ∨ 0xBF < b) : RuneStart b = true := by
  simp [RuneStart]; omega

theorem runeStart_false (b : Nat) (h1 : 0x80 ≤ b) (h2 : b ≤ 0xBF) : RuneStart b = false := by
  simp [RuneStart]; omega

/-- How `DecodeLastRuneInString` finishes once the scan has stopped at `st`. -/
theorem decodeLast_of_scan (s : GoString) (st : Nat) (r w : Nat) (hn : s ≠ [])
    (hb : 0x80 ≤ byteAt s (s.length - 1))
    (hscan : scanStart s (if ((s.length : Int) - 4) < 0 then 0 else (s.length : Int) - 4) 4
      ((s.length : Int) - 1 - 1) = (st : Int))
    (hd : DecodeRuneInString (s.drop st) = (r, w)) (hw : st + w = s.length) :
    DecodeLastRuneInString s = (r, w) := by
  have hl : s.length ≠ 0 := by
    cases s with
    | nil => exact absurd rfl hn
    | cons a t => simp
  have hst : (if (st : Int) < 0 then 0 else (st : Int)) = (st : Int) := if_neg (by omega)
  unfold DecodeLastRuneInString
  simp only [hscan, hst, Int.toNat_ofNat, hd]
  rw [if_neg hl, if_neg (by omega), if_neg (by omega)]

/-- Reading backwards undoes encoding: the last rune of `p ++ encodeRune r` is `r`. -/
theorem decodeLast_encode (p : GoString) (r : Nat) (hv : ValidRune r = true) :
    DecodeLastRuneInString (p ++ encodeRune r) = (r, (encodeRune r).length) := by
  have hdec := decode_encode r [] hv
  rw [List.append_nil] at hdec
  rw [validRune_iff] at hv
  by_cases h1 : r ≤ 0x7F
  · rw [encode_one r h1]
    unfold DecodeLastRuneInString
    have : byteAt (p ++ [byte r]) ((p ++ [byte r]).length - 1) = r := by
      have := byteAt_append_right p [byte r] 0
      simp only [Nat.add_zero] at this
      simp only [List.length_append, List.length_singleton, Nat.add_sub_cancel, this,
        byteAt_cons_zero, byte_toNat]
      omega
    simp only [this]
    rw [if_neg (by simp), if_pos (by omega)]
    rfl
  by_cases h2 : r ≤ 0x7FF
  · rw [encode_two r (by omega) h2] at hdec ⊢
    apply decodeLast_of_scan _ p.length
    · simp
    · have := byteAt_append_right p [byte (0xC0 + r / 64), byte (0x80 + r % 64)] 1
      simp only [List.length_append, List.length_cons, List.length_nil]
      rw [show p.length + (0 + 1 + 1) - 1 = p.length + 1 by omega, this, byteAt_cons_succ,
        byteAt_cons_zero, byte_toNat]
      omega
    · simp only [List.length_append, List.length_cons, List.length_nil]
      rw [scanStart_hit]
      · push_cast; omega
      · split_ifs <;> push_cast <;> omega
      · have := byteAt_append_right p [byte (0xC0 + r / 64), byte (0x80 + r % 64)] 0
        rw [show ((((p.length + (0 + 1 + 1) : Nat) : Int) - 1 - 1).toNat) = p.length + 0 by
          push_cast; omega, this, byteAt_cons_zero, byte_toNat]
        apply runeStart_true; omega
    · rw [List.drop_left]; exact hdec
    · simp
  by_cases h3 : r ≤ 0xFFFF
  · rw [encode_three r (by omega) (by omega)] at hdec ⊢
    have e0 := byteAt_append_right p
      [byte (0xE0 + r / 4096), byte (0x80 + r / 64 % 64), byte (0x80 + r % 64)] 0
    have e1 := byteAt_append_right p
      [byte (0xE0 + r / 4096), byte (0x80 + r / 64 % 64), byte (0x80 + r % 64)] 1
    have e2 := byteAt_append_right p
      [byte (0xE0 + r / 4096), byte (0x80 + r / 64 % 64), byte (0x80 + r % 64)] 2
    simp only [byteAt_cons_succ, byteAt_cons_zero, byte_toNat] at e0 e1 e2
    apply decodeLast_of_scan _ p.length
    · simp
    · simp only [List.length_append, List.length_cons, List.length_nil]
      rw [show p.length + (0 + 1 + 1 + 1) - 1 = p.length + 2 by omega, e2]
      omega
    · simp only [List.length_append, List.length_cons, List.length_nil]
      rw [scanStart_miss, scanStart_hit]
      · push_cast; omega
      · split_ifs <;> push_cast <;> omega
      · rw [show ((((p.length + (0 + 1 + 1 + 1) : Nat) : Int) - 1 - 1 - 1).toNat) = p.length + 0 by
          push_cast; omega, e0]
        apply runeStart_true; omega
      · split_ifs <;> push_cast <;> omega
      · rw [show ((((p.length + (0 + 1 + 1 + 1) : Nat) : Int) - 1 - 1).toNat) = p.length + 1 by
          push_cast; omega, e1]
        apply runeStart_false <;> omega
    · rw [List.drop_left]; exact hdec
    · simp
  · rw [encode_four r (by omega) (by omega)] at hdec ⊢
    have e0 := byteAt_append_right p
      [byte (0xF0 + r / 262144), byte (0x80 + r / 4096 % 64), byte (0x80 + r / 64 % 64),
        byte (0x80 + r % 64)] 0
    have e1 := byteAt_append_right p
      [byte (0xF0 + r / 262144), byte (0x80 + r / 4096 % 64), byte (0x80 + r / 64 % 64),
        byte (0x80 + r % 64)] 1
    have e2 := byteAt_append_right p
      [byte (0xF0 + r / 262144), byte (0x80 + r / 4096 % 64), byte (0x80 + r / 64 % 64),
        byte (0x80 + r % 64)] 2
    have e3 := byteAt_append_right p
      [byte (0xF0 + r / 262144), byte (0x80 + r / 4096 % 64), byte (0x80 + r / 64 % 64),
        byte (0x80 + r % 64)] 3
    simp only [byteAt_cons_succ, byteAt_cons_zero, byte_toNat] at e0 e1 e2 e3
    apply decodeLast_of_scan _ p.length
    · simp
    · simp only [List.length_append, List.length_cons, List.length_nil]
      rw [show p.length + (0 + 1 + 1 + 1 + 1) - 1 = p.length + 3 by omega, e3]
      omega
    · simp only [List.length_append, List.length_cons, List.length_nil]
      rw [scanStart_miss, scanStart_miss, scanStart_hit]
      · push_cast; omega
      · split_ifs <;> push_cast <;> omega
      · rw [show ((((p.length + (0 + 1 + 1 + 1 + 1) : Nat) : Int) - 1 - 1 - 1 - 1).toNat) =
          p.length + 0 by push_cast; omega, e0]
        apply runeStart_true; omega
      · split_ifs <;> push_cast <;> omega
      · rw [show ((((p.length + (0 + 1 + 1 + 1 + 1) : Nat) : Int) - 1 - 1 - 1).toNat) =
          p.length + 1 by push_cast; omega, e1]
        apply runeStart_false <;> omega
      · split_ifs <;> push_cast <;> omega
      · rw [show ((((p.length + (0 + 1 + 1 + 1 + 1) : Nat) : Int) - 1 - 1).toNat) =
          p.length + 2 by push_cast; omega, e2]
        apply runeStart_false <;> omega
    · rw [List.drop_left]; exact hdec
    · simp

/-! ## Well-formed strings -/

theorem encodeRune_length (r : Nat) : 1 ≤ (encodeRune r).length ∧ (encodeRune r).length ≤ 4 := by
  unfold encodeRune; split_ifs <;> simp

theorem encodeRune_ne_nil (r : Nat) : encodeRune r ≠ [] := by
  intro h
  have := (encodeRune_length r).1
  rw [h] at this
  simp at this

theorem encodeRunes_nil : encodeRunes [] = [] := rfl

theorem encodeRunes_cons (r : Nat) (rs : List Nat) :
    encodeRunes (r :: rs) = encodeRune r ++ encodeRunes rs := by
  simp [encodeRunes]

theorem encodeRunes_append (xs ys : List Nat) :
    encodeRunes (xs ++ ys) = encodeRunes xs ++ encodeRunes ys := by
  simp [encodeRunes]

theorem encodeRunes_eq_nil (rs : List Nat) (h : encodeRunes rs = []) : rs = [] := by
  cases rs with
  | nil => rfl
  | cons r rs =>
    rw [encodeRunes_cons] at h
    exact absurd (List.append_eq_nil.mp h).1 (encodeRune_ne_nil r)

theorem allValid_cons (r : Nat) (rs : List Nat) :
    AllValid (r :: rs) ↔ ValidRune r = true ∧ AllValid rs := by
  simp [AllValid]

theorem allValid_append (xs ys : List Nat) : AllValid (xs ++ ys) ↔ AllValid xs ∧ AllValid ys := by
  simp only [AllValid, List.mem_append]
  constructor
  · intro h; exact ⟨fun r hr => h r (Or.inl hr), fun r hr => h r (Or.inr hr)⟩
  · rintro ⟨h1, h2⟩ r (hr | hr)
    · exact h1 r hr
    · exact h2 r hr

theorem allValid_take (rs : List Nat) (k : Nat) (h : AllValid rs) : AllValid (rs.take k) :=
  fun r hr => h r (List.mem_of_mem_take hr)

theorem allValid_drop (rs : List Nat) (k : Nat) (h : AllValid rs) : AllValid (rs.drop k) :=
  fun r hr => h r (List.mem_of_mem_drop hr)

/-- The decoding loop over the encoding of valid runes reads the runes back. -/
theorem rangeLoop_encodeRunes (rs : List Nat) (hv : AllValid rs) :
    ∀ (fuel i : Nat), (encodeRunes rs).length ≤ fuel →
      rangeLoop fuel i (encodeRunes rs) = stepsOf i rs := by
  induction rs with
  | nil =>
    intro fuel i _
    cases fuel <;> simp [rangeLoop, stepsOf, encodeRunes_nil]
  | cons r rs ih =>
    intro fuel i hf
    rw [allValid_cons] at hv
    rw [encodeRunes_cons] at hf ⊢
    have hl := encodeRune_length r
    cases fuel with
    | zero => simp only [List.length_append] at hf; omega
    | succ fuel =>
      have hne : encodeRune r ++ encodeRunes rs ≠ [] := by
        intro h; exact encodeRune_ne_nil r (List.append_eq_nil.mp h).1
      simp only [rangeLoop, hne, if_false, decode_encode r _ hv.1, List.drop_left, stepsOf]
      rw [ih hv.2]
      simp only [List.length_append] at hf
      omega

theorem rangeSteps_encodeRunes (rs : List Nat) (hv : AllValid rs) :
    rangeSteps (encodeRunes rs) = stepsOf 0 rs :=
  rangeLoop_encodeRunes rs hv _ 0 (Nat.le_refl _)

theorem stepsOf_length (rs : List Nat) : ∀ i, (stepsOf i rs).length = rs.length := by
  induction rs with
  | nil => intro i; rfl
  | cons r rs ih => intro i; simp [stepsOf, ih]

theorem stepsOf_runes (rs : List Nat) : ∀ i, (stepsOf i rs).map (fun t => t.2.1) = rs := by
  induction rs with
  | nil => intro i; rfl
  | cons r rs ih => intro i; simp [stepsOf, ih]

theorem stepsOf_ok (rs : List Nat) :
    ∀ i, (stepsOf i rs).all (fun t => !(t.2.1 == RuneError && t.2.2 == 1)) = true := by
  induction rs with
  | nil => intro i; rfl
  | cons r rs ih =>
    intro i
    simp only [stepsOf, List.all_cons, ih, Bool.and_true]
    by_cases h : r = RuneError
    · subst h
      simp [RuneError, encodeRune, MaxRune]
    · simp [h]

theorem toRunes_encodeRunes (rs : List Nat) (hv : AllValid rs) : toRunes (encodeRunes rs) = rs := by
  rw [toRunes, rangeSteps_encodeRunes rs hv, stepsOf_runes]

theorem runeCount_encodeRunes (rs : List Nat) (hv : AllValid rs) :
    RuneCountInString (encodeRunes rs) = rs.length := by
  rw [RuneCountInString, rangeSteps_encodeRunes rs hv, stepsOf_length]

theorem validString_encodeRunes (rs : List Nat) (hv : AllValid rs) :
    ValidString (encodeRunes rs) = true := by
  rw [ValidString, rangeSteps_encodeRunes rs hv, stepsOf_ok]

/-- A string whose decoding reports no error is the encoding of valid runes. -/
theorem rangeLoop_valid (fuel : Nat) :
    ∀ (i : Nat) (s : GoString), s.length ≤ fuel →
      (rangeLoop fuel i s).all (fun t => !(t.2.1 == RuneError && t.2.2 == 1)) = true →
      ∃ rs, AllValid rs ∧ s = encodeRunes rs := by
  induction fuel with
  | zero =>
    intro i s hl _
    have : s = [] := List.length_eq_zero.mp (by omega)
    exact ⟨[], by simp [AllValid], by rw [this]; rfl⟩
  | succ fuel ih =>
    intro i s hl h
    by_cases hs : s = []
    · exact ⟨[], by simp [AllValid], by rw [hs]; rfl⟩
    simp only [rangeLoop, hs, if_false, List.all_cons, Bool.and_eq_true] at h
    rcases decode_inv s hs with hbad | ⟨r, t, hr, hst, hd⟩
    · rw [hbad] at h; simp at h
    · rw [hd, hst, List.drop_left] at h
      have hlen := encodeRune_length r
      have : t.length ≤ fuel := by
        rw [hst, List.length_append] at hl; omega
      obtain ⟨rs, hrs, ht⟩ := ih _ t this h.2
      exact ⟨r :: rs, (allValid_cons r rs).mpr ⟨hr, hrs⟩, by rw [hst, ht, encodeRunes_cons]⟩

theorem validString_decompose (s : GoString) (h : ValidString s = true) :
    ∃ rs, AllValid rs ∧ s = encodeRunes rs :=
  rangeLoop_valid s.length 0 s (Nat.le_refl _) h

/-! ## The loops of `substring` on well-formed strings -/

theorem bind_ok {α β : Type} (a : α) (f : α → Outcome β) : (Outcome.ok a).bind f = f a := rfl

theorem runeLen_valid (r : Nat) (hv : ValidRune r = true) :
    RuneLen (r : Int) = ((encodeRune r).length : Int) := by
  rw [validRune_iff] at hv
  unfold RuneLen encodeRune
  simp only [MaxRune]
  split_ifs <;> first | omega | simp

theorem length_le_encodeRunes (rs : List Nat) : rs.length ≤ (encodeRunes rs).length := by
  induction rs with
  | nil => simp
  | cons r rs ih =>
    rw [encodeRunes_cons, List.length_append, List.length_cons]
    have := (encodeRune_length r).1
    omega

theorem encodeRunes_snoc (pre : List Nat) (r : Nat) :
    encodeRunes (pre ++ [r]) = encodeRunes pre ++ encodeRune r := by
  rw [encodeRunes_append, encodeRunes_cons, encodeRunes_nil, List.append_nil]

/-- The skipping loop: after `offset` runes the rest of the string is left and
`offset` is zero; if the string has fewer runes, `offset` stays positive. -/
theorem skipRunes_spec (str : GoString) :
    ∀ (rs pre : List Nat) (offset : Int), AllValid rs →
      str = encodeRunes pre ++ encodeRunes rs → 1 ≤ offset →
      skipRunes ((stepsOf (encodeRunes pre).length rs).map (fun t => (t.1, t.2.1))) str offset =
        if offset ≤ (rs.length : Int) then Outcome.ok (encodeRunes (rs.drop offset.toNat), 0)
        else Outcome.ok (str, offset - (rs.length : Int)) := by
  intro rs
  induction rs with
  | nil =>
    intro pre offset _ _ ho
    simp only [stepsOf, List.map_nil, skipRunes, List.length_nil]
    rw [if_neg (by push_cast; omega)]
    simp
  | cons r rs ih =>
    intro pre offset hv hstr ho
    rw [allValid_cons] at hv
    simp only [stepsOf, List.map_cons, skipRunes]
    by_cases h1 : offset - 1 = 0
    · have h1' : offset = 1 := by omega
      rw [if_pos h1, runeLen_valid r hv.1]
      subst h1'
      have hlen : ((encodeRunes pre).length : Int) + ((encodeRune r).length : Int) ≤
          (str.length : Int) := by
        rw [hstr, encodeRunes_cons]; simp only [List.length_append]; push_cast; omega
      unfold sliceFrom
      rw [if_pos ⟨by omega, hlen⟩, bind_ok, if_pos (by simp)]
      have : (((encodeRunes pre).length : Int) + ((encodeRune r).length : Int)).toNat =
          (encodeRunes pre ++ encodeRune r).length := by
        rw [List.length_append]; omega
      rw [this, hstr, encodeRunes_cons, ← List.append_assoc, List.drop_left]
      simp
    · rw [if_neg h1]
      have hstr' : str = encodeRunes (pre ++ [r]) ++ encodeRunes rs := by
        rw [hstr, encodeRunes_snoc, encodeRunes_cons, List.append_assoc]
      have := ih (pre ++ [r]) (offset - 1) hv.2 hstr' (by omega)
      rw [encodeRunes_snoc, List.length_append] at this
      rw [this]
      have hd : (r :: rs).drop offset.toNat = rs.drop (offset - 1).toNat := by
        have : offset.toNat = (offset - 1).toNat + 1 := by omega
        rw [this, List.drop_succ_cons]
      rw [hd]
      simp only [List.length_cons]
      by_cases h2 : offset - 1 ≤ (rs.length : Int)
      · rw [if_pos h2, if_pos (by push_cast; omega)]
      · rw [if_neg h2, if_neg (by push_cast; omega)]
        congr 2
        push_cast; omega

/-- The taking loop: the string is cut before rune number `length`. -/
theorem takeRunes_spec (str : GoString) :
    ∀ (rs pre : List Nat) (length : Nat),
      str = encodeRunes pre ++ encodeRunes rs →
      takeRunes ((stepsOf (encodeRunes pre).length rs).map (fun t => (t.1, t.2.1))) str length =
        Outcome.ok (encodeRunes pre ++ encodeRunes (rs.take length)) := by
  intro rs
  induction rs with
  | nil =>
    intro pre length hstr
    simp only [stepsOf, List.map_nil, takeRunes, List.take_nil]
    rw [hstr]
  | cons r rs ih =>
    intro pre length hstr
    simp only [stepsOf, List.map_cons, takeRunes]
    by_cases h1 : length = 0
    · subst h1
      rw [if_pos rfl]
      unfold sliceTo
      rw [if_pos ⟨by omega, by rw [hstr, List.length_append]; push_cast; omega⟩, Int.toNat_ofNat,
        hstr, List.take_left]
      simp [encodeRunes_nil]
    · rw [if_neg h1]
      have hstr' : str = encodeRunes (pre ++ [r]) ++ encodeRunes rs := by
        rw [hstr, encodeRunes_snoc, encodeRunes_cons, List.append_assoc]
      have := ih (pre ++ [r]) (length - 1) hstr'
      rw [encodeRunes_snoc, List.length_append] at this
      rw [this]
      obtain ⟨m, rfl⟩ : ∃ m, length = m + 1 := ⟨length - 1, by omega⟩
      simp only [Nat.add_sub_cancel, List.take_succ_cons, encodeRunes_cons, List.append_assoc]

theorem decodeLast_nil : DecodeLastRuneInString [] = (RuneError, 0) := rfl

theorem take_succ_eq (rs : List Nat) (k : Nat) (hk : k < rs.length) :
    rs.take (k + 1) = rs.take k ++ [rs.get ⟨k, hk⟩] := by
  rw [List.take_succ, List.getElem?_eq_getElem hk]
  rfl

theorem encodeRunes_take_le (rs : List Nat) (k : Nat) :
    (encodeRunes (rs.take k)).length ≤ (encodeRunes rs).length := by
  conv_rhs => rw [← List.take_append_drop k rs, encodeRunes_append, List.length_append]
  omega

theorem take_encodeRunes (rs : List Nat) (k : Nat) :
    (encodeRunes rs).take (encodeRunes (rs.take k)).length = encodeRunes (rs.take k) := by
  have h : encodeRunes rs = encodeRunes (rs.take k) ++ encodeRunes (rs.drop k) := by
    rw [← encodeRunes_append, List.take_append_drop]
  rw [h, List.take_left]

theorem drop_encodeRunes (rs : List Nat) (k : Nat) :
    (encodeRunes rs).drop (encodeRunes (rs.take k)).length = encodeRunes (rs.drop k) := by
  have h : encodeRunes rs = encodeRunes (rs.take k) ++ encodeRunes (rs.drop k) := by
    rw [← encodeRunes_append, List.take_append_drop]
  rw [h, List.drop_left]

/-- The backward walk: from the boundary before rune `k`, `count` steps back end
at the boundary before rune `k - count`, or at the start of the string. -/
theorem backwardPosLoop_spec (rs : List Nat) (hv : AllValid rs) :
    ∀ (k fuel count : Nat), k ≤ rs.length → k < fuel → 1 ≤ count →
      backwardPosLoop (encodeRunes rs) fuel ((encodeRunes (rs.take k)).length : Int) count =
        Outcome.ok ((encodeRunes (rs.take (k - count))).length : Int) := by
  intro k
  induction k with
  | zero =>
    intro fuel count _ hf hc
    obtain ⟨f, rfl⟩ : ∃ f, fuel = f + 1 := ⟨fuel - 1, by omega⟩
    simp only [List.take_zero, encodeRunes_nil, List.length_nil, Nat.zero_sub]
    simp only [backwardPosLoop, sliceTo]
    rw [if_pos ⟨by simp, by simp⟩, bind_ok]
    simp [decodeLast_nil]
  | succ k ih =>
    intro fuel count hk hf hc
    obtain ⟨f, rfl⟩ : ∃ f, fuel = f + 1 := ⟨fuel - 1, by omega⟩
    have hk' : k < rs.length := by omega
    have hr : ValidRune (rs.get ⟨k, hk'⟩) = true := hv _ (List.get_mem rs k hk')
    have hle := encodeRunes_take_le rs (k + 1)
    simp only [backwardPosLoop, sliceTo]
    rw [if_pos ⟨by omega, by omega⟩, bind_ok, Int.toNat_ofNat, take_encodeRunes,
      take_succ_eq rs k hk', encodeRunes_snoc, decodeLast_encode _ _ hr]
    have hpos : (((encodeRunes (rs.take k) ++ encodeRune (rs.get ⟨k, hk'⟩)).length : Nat) : Int) -
        (((encodeRune (rs.get ⟨k, hk'⟩)).length : Nat) : Int) =
        ((encodeRunes (rs.take k)).length : Int) := by
      rw [List.length_append]; push_cast; omega
    simp only [hpos]
    have hdec : decUint count = count - 1 := by
      unfold decUint; rw [if_neg (by omega)]
    rw [hdec]
    by_cases h1 : count - 1 = 0
    · rw [if_pos (Or.inl h1)]
      have : k + 1 - count = k := by omega
      rw [this]
    by_cases h2 : ((encodeRunes (rs.take k)).length : Int) = 0
    · rw [if_pos (Or.inr h2)]
      have h3 : (encodeRunes (rs.take k)).length = 0 := by omega
      have h4 : rs.take k = [] := encodeRunes_eq_nil _ (List.length_eq_zero.mp h3)
      have h5 : k = 0 := by
        have := congrArg List.length h4
        rw [List.length_take] at this
        simp only [List.length_nil] at this
        omega
      subst h5
      have : 0 + 1 - count = 0 := by omega
      rw [this]
    · rw [if_neg (by rintro (h | h); exact h1 h; exact h2 h)]
      rw [ih f (count - 1) (by omega) (by omega) (by omega)]
      have : k - (count - 1) = k + 1 - count := by omega
      rw [this]

theorem backwardPos_spec (rs : List Nat) (hv : AllValid rs) (k count : Nat) (hk : k ≤ rs.length)
    (hc : 1 ≤ count) :
    backwardPos (encodeRunes rs) ((encodeRunes (rs.take k)).length : Int) count =
      Outcome.ok ((encodeRunes (rs.take (k - count))).length : Int) := by
  unfold backwardPos
  apply backwardPosLoop_spec rs hv k _ count hk _ hc
  have := length_le_encodeRunes rs
  omega

/-! ## `substring` on well-formed strings -/

theorem rangeStr_encodeRunes (rs : List Nat) (hv : AllValid rs) :
    rangeStr (encodeRunes rs) =
      (stepsOf (encodeRunes []).length rs).map (fun t => (t.1, t.2.1)) := by
  rw [rangeStr, rangeSteps_encodeRunes rs hv]; rfl

theorem encodeRunes_take_all (rs : List Nat) (length : Nat)
    (h : (encodeRunes rs).length ≤ length) : rs.take length = rs := by
  apply List.take_of_length_le
  have := length_le_encodeRunes rs
  omega

/-- On a well-formed string `substring` returns, without panic, the encoding of
the runes picked by `selectRunes`. -/
theorem substring_encodeRunes (rs : List Nat) (hv : AllValid rs) (offset : Int) (length : Nat) :
    substring (encodeRunes rs) offset length =
      Outcome.ok (encodeRunes (selectRunes rs (encodeRunes rs).length offset length)) := by
  unfold substring selectRunes
  by_cases h1 : length = 0 ∨ offset ≥ ((encodeRunes rs).length : Int)
  · rw [if_pos h1, if_pos h1]; rfl
  rw [if_neg h1, if_neg h1]
  by_cases h2 : offset > 0
  · rw [if_pos h2, if_pos h2, rangeStr_encodeRunes rs hv,
      skipRunes_spec (encodeRunes rs) rs [] offset hv (by simp [encodeRunes_nil]) (by omega)]
    by_cases h3 : offset ≤ (rs.length : Int)
    · rw [if_pos h3, bind_ok]
      simp only [ne_eq, not_true_eq_false, if_false]
      by_cases h4 : (encodeRunes (rs.drop offset.toNat)).length ≤ length
      · rw [if_pos h4, encodeRunes_take_all _ _ h4]
      · rw [if_neg h4, rangeStr_encodeRunes _ (allValid_drop rs _ hv),
          takeRunes_spec _ _ [] length (by simp [encodeRunes_nil])]
        simp [encodeRunes_nil]
    · rw [if_neg h3, bind_ok]
      simp only []
      rw [if_pos (by omega)]
      have : rs.drop offset.toNat = [] := List.drop_of_length_le (by omega)
      rw [this, List.take_nil]; rfl
  rw [if_neg h2, if_neg h2]
  by_cases h3 : offset < -((encodeRunes rs).length : Int) ∨ offset = 0
  · rw [if_pos h3, if_pos h3, rangeStr_encodeRunes rs hv,
      takeRunes_spec _ _ [] length (by simp [encodeRunes_nil])]
    simp [encodeRunes_nil]
  rw [if_neg h3, if_neg h3]
  have hfull : ((encodeRunes rs).length : Int) = ((encodeRunes (rs.take rs.length)).length : Int) := by
    rw [List.take_length]
  simp only []
  by_cases h4 : (-offset).toNat ≤ length
  · rw [if_pos h4, if_pos h4, hfull, backwardPos_spec rs hv rs.length _ (Nat.le_refl _) (by omega),
      bind_ok]
    unfold sliceFrom
    rw [if_pos ⟨by omega, by have := encodeRunes_take_le rs (rs.length - (-offset).toNat); omega⟩,
      Int.toNat_ofNat, drop_encodeRunes]
  · rw [if_neg h4, if_neg h4, hfull,
      backwardPos_spec rs hv rs.length _ (Nat.le_refl _) (by omega), bind_ok,
      backwardPos_spec rs hv _ length (by omega) (by omega), bind_ok]
    unfold slice
    have hmono : (encodeRunes (rs.take (rs.length - ((-offset).toNat - length) - length))).length ≤
        (encodeRunes (rs.take (rs.length - ((-offset).toNat - length)))).length := by
      have := encodeRunes_take_le (rs.take (rs.length - ((-offset).toNat - length)))
        (rs.length - ((-offset).toNat - length) - length)
      rw [List.take_take] at this
      rw [Nat.min_eq_left (by omega)] at this
      exact this
    have hle := encodeRunes_take_le rs (rs.length - ((-offset).toNat - length))
    rw [if_pos ⟨by omega, by omega, by omega⟩, Int.toNat_ofNat, Int.toNat_ofNat, take_encodeRunes]
    have := drop_encodeRunes (rs.take (rs.length - ((-offset).toNat - length)))
      (rs.length - ((-offset).toNat - length) - length)
    rw [List.take_take, Nat.min_eq_left (by omega)] at this
    rw [this]

/-! ## NUL removal and the repair step -/

theorem byte_bne_zero (x : Nat) (h : x % 256 ≠ 0) : (byte x != 0) = true := by
  rw [bne_iff_ne]
  intro hx
  have := congrArg UInt8.toNat hx
  rw [byte_toNat] at this
  exact h this

theorem removeNul_append (a b : GoString) : removeNul (a ++ b) = removeNul a ++ removeNul b := by
  simp [removeNul]

theorem removeNul_encodeRune_zero : removeNul (encodeRune 0) = [] := by decide

theorem removeNul_encodeRune (r : Nat) (hv : ValidRune r = true) (h0 : r ≠ 0) :
    removeNul (encodeRune r) = encodeRune r := by
  rw [validRune_iff] at hv
  unfold removeNul
  by_cases h1 : r ≤ 0x7F
  · rw [encode_one r h1]
    simp only [List.filter_cons, List.filter_nil, byte_bne_zero r (by omega), if_true]
  by_cases h2 : r ≤ 0x7FF
  · rw [encode_two r (by omega) h2]
    simp only [List.filter_cons, List.filter_nil, byte_bne_zero _ (show (0xC0 + r / 64) % 256 ≠ 0 by omega),
      byte_bne_zero _ (show (0x80 + r % 64) % 256 ≠ 0 by omega), if_true]
  by_cases h3 : r ≤ 0xFFFF
  · rw [encode_three r (by omega) (by omega)]
    simp only [List.filter_cons, List.filter_nil,
      byte_bne_zero _ (show (0xE0 + r / 4096) % 256 ≠ 0 by omega),
      byte_bne_zero _ (show (0x80 + r / 64 % 64) % 256 ≠ 0 by omega),
      byte_bne_zero _ (show (0x80 + r % 64) % 256 ≠ 0 by omega), if_true]
  · rw [encode_four r (by omega) (by omega)]
    simp only [List.filter_cons, List.filter_nil,
      byte_bne_zero _ (show (0xF0 + r / 262144) % 256 ≠ 0 by omega),
      byte_bne_zero _ (show (0x80 + r / 4096 % 64) % 256 ≠ 0 by omega),
      byte_bne_zero _ (show (0x80 + r / 64 % 64) % 256 ≠ 0 by omega),
      byte_bne_zero _ (show (0x80 + r % 64) % 256 ≠ 0 by omega), if_true]

/-- Removing NUL bytes from a well-formed string removes the runes U+0000. -/
theorem removeNul_encodeRunes (rs : List Nat) (hv : AllValid rs) :
    removeNul (encodeRunes rs) = encodeRunes (rs.filter (fun r => r != 0)) := by
  induction rs with
  | nil => rfl
  | cons r rs ih =>
    rw [allValid_cons] at hv
    rw [encodeRunes_cons, removeNul_append, ih hv.2]
    by_cases h0 : r = 0
    · subst h0
      rw [removeNul_encodeRune_zero]
      simp
    · rw [removeNul_encodeRune r hv.1 h0, List.filter_cons_of_pos (by simpa using h0),
        encodeRunes_cons]

theorem removeNul_no_zero (s : GoString) : (0 : UInt8) ∉ removeNul s := by
  intro h
  simp [removeNul] at h

theorem repair_of_valid (s : GoString) (h : ValidString s = true) : repair s = s := by
  simp [repair, h]

/-- On a well-formed string `Substring` returns the selected runes without the
runes U+0000. -/
theorem Substring_encodeRunes (rs : List Nat) (hv : AllValid rs) (offset : Int) (length : Nat) :
    Substring (encodeRunes rs) offset length =
      Outcome.ok (removeNul (encodeRunes (selectRunes rs (encodeRunes rs).length offset length))) := by
  have hsel : AllValid (selectRunes rs (encodeRunes rs).length offset length) := by
    unfold selectRunes
    split_ifs
    · intro r hr; simp at hr
    · exact allValid_take _ _ (allValid_drop _ _ hv)
    · exact allValid_take _ _ hv
    · exact allValid_drop _ _ hv
    · exact allValid_drop _ _ (allValid_take _ _ hv)
  rw [Substring, substring_encodeRunes rs hv, bind_ok,
    repair_of_valid _ (validString_encodeRunes _ hsel)]

/-- A well-formed string is the encoding of its runes. -/
theorem encodeRunes_toRunes (str : GoString) (h : ValidString str = true) :
    AllValid (toRunes str) ∧ encodeRunes (toRunes str) = str ∧
      RuneCountInString str = (toRunes str).length := by
  obtain ⟨rs, hrs, rfl⟩ := validString_decompose str h
  rw [toRunes_encodeRunes rs hrs, runeCount_encodeRunes rs hrs]
  exact ⟨hrs, rfl, rfl⟩

/-! ## Claims about `Substring` -/

/-- C1 (the code departs from the claim). `Substring` is not total on malformed
input: on the two-byte string `"\xffa"` with offset 1 and length 1 the skipping
loop decodes the invalid byte as `RuneError` of width 1 but advances by
`utf8.RuneLen(RuneError) = 3`, and the slice `str[3:]` of a two-byte string
panics. -/
theorem Substring_panics_on_invalid_byte :
    Substring [0xFF, 0x61] 1 1 = Outcome.panic "slice bounds out of range" := by
  decide

/-- C2 (the code departs from the claim). For the well-formed string `"héllo"`
(5 runes, 6 bytes) the offset `-6` lies at or below minus the rune count, so the
claim asks for the first 3 runes `"hél"`; the code returns `"hé"`. -/
theorem Substring_clamp_fails_between_rune_and_byte_count :
    ValidString (utf8 "héllo") = true ∧
    (-6 : Int) ≤ -(RuneCountInString (utf8 "héllo") : Int) ∧
    removeNul (encodeRunes ((toRunes (utf8 "héllo")).take
      (min 3 (RuneCountInString (utf8 "héllo"))))) = utf8 "hél" ∧
    Substring (utf8 "héllo") (-6) 3 = Outcome.ok (utf8 "hé") ∧
    utf8 "hé" ≠ utf8 "hél" := by
  decide

/-- C3. In-range negative offset: for a well-formed string with `n` runes,
`length > 0` and `-n < offset < 0`, `Substring` returns, with NUL removed, the
last `|offset|` runes when `|offset| <= length`, and otherwise the first
`length` of the last `|offset|` runes, which are exactly `length` runes. -/
theorem Substring_negative_offset (str : GoString) (offset : Int) (length : Nat)
    (hv : ValidString str = true) (hl : 0 < length)
    (h1 : -(RuneCountInString str : Int) < offset) (h2 : offset < 0) :
    Substring str offset length = Outcome.ok (removeNul (encodeRunes
      (if (-offset).toNat ≤ length then
        (toRunes str).drop (RuneCountInString str - (-offset).toNat)
      else ((toRunes str).drop (RuneCountInString str - (-offset).toNat)).take length))) ∧
    ((toRunes str).drop (RuneCountInString str - (-offset).toNat)).length = (-offset).toNat ∧
    (length < (-offset).toNat →
      (((toRunes str).drop (RuneCountInString str - (-offset).toNat)).take length).length
        = length) := by
  obtain ⟨hrs, henc, hn⟩ := encodeRunes_toRunes str hv
  have hb := length_le_encodeRunes (toRunes str)
  rw [henc] at hb
  rw [hn] at h1 ⊢
  refine ⟨?_, ?_, ?_⟩
  · conv_lhs => rw [← henc]
    rw [Substring_encodeRunes _ hrs, henc]
    congr 3
    unfold selectRunes
    rw [if_neg (by omega), if_neg (by omega), if_neg (by omega)]
    by_cases h4 : (-offset).toNat ≤ length
    · rw [if_pos h4, if_pos h4]
    · rw [if_neg h4, if_neg h4, List.drop_take]
      congr 1
      · omega
      · congr 1; omega
  · rw [List.length_drop]; omega
  · intro h
    rw [List.length_take, List.length_drop]; omega

theorem Substring_negative_offset_witness :
    Substring (utf8 "hello world") (-5) 3 = Outcome.ok (utf8 "wor") := by
  have h := (Substring_negative_offset (utf8 "hello world") (-5) 3 (by decide) (by decide)
    (by decide) (by decide)).1
  rw [h]
  decide

/-- C4. Positive offset: for a well-formed string with `n` runes, `length > 0`
and `0 < offset < n`, `Substring` returns the runes at positions
`offset .. min(offset+length, n) - 1`, with NUL removed. -/
theorem Substring_positive_offset (str : GoString) (offset : Int) (length : Nat)
    (hv : ValidString str = true) (hl : 0 < length) (h1 : 0 < offset)
    (h2 : offset < (RuneCountInString str : Int)) :
    Substring str offset length =
      Outcome.ok (removeNul (encodeRunes (((toRunes str).drop offset.toNat).take length))) ∧
    (((toRunes str).drop offset.toNat).take length).length =
      min (offset.toNat + length) (RuneCountInString str) - offset.toNat := by
  obtain ⟨hrs, henc, hn⟩ := encodeRunes_toRunes str hv
  have hb := length_le_encodeRunes (toRunes str)
  rw [henc] at hb
  rw [hn] at h2 ⊢
  constructor
  · conv_lhs => rw [← henc]
    rw [Substring_encodeRunes _ hrs, henc]
    congr 3
    unfold selectRunes
    rw [if_neg (by omega), if_pos (by omega)]
  · rw [List.length_take, List.length_drop]; omega

theorem Substring_positive_offset_witness :
    Substring (utf8 "hello world") 6 5 = Outcome.ok (utf8 "world") := by
  have h := (Substring_positive_offset (utf8 "hello world") 6 5 (by decide) (by decide)
    (by decide) (by decide)).1
  rw [h]
  decide

/-- C5. Empty cases: for a well-formed string with `n` runes, `Substring` is the
empty string whenever `length == 0` or `offset >= n`, the rune count. -/
theorem Substring_empty (str : GoString) (offset : Int) (length : Nat)
    (hv : ValidString str = true)
    (h : length = 0 ∨ (RuneCountInString str : Int) ≤ offset) :
    Substring str offset length = Outcome.ok [] := by
  obtain ⟨hrs, henc, hn⟩ := encodeRunes_toRunes str hv
  have hb := length_le_encodeRunes (toRunes str)
  rw [henc] at hb
  rw [hn] at h
  conv_lhs => rw [← henc]
  rw [Substring_encodeRunes _ hrs, henc]
  have : selectRunes (toRunes str) str.length offset length = [] := by
    unfold selectRunes
    by_cases h1 : length = 0 ∨ offset ≥ (str.length : Int)
    · rw [if_pos h1]
    · rw [if_neg h1]
      have h2 : ((toRunes str).length : Int) ≤ offset := by omega
      have h3 : 0 < offset := by
        rcases Nat.eq_zero_or_pos (toRunes str).length with h0 | h0
        · have : toRunes str = [] := List.length_eq_zero.mp h0
          rw [this, encodeRunes_nil] at henc
          rw [← henc] at h1
          simp only [List.length_nil] at h1
          omega
        · omega
      rw [if_pos h3, List.drop_of_length_le (by omega), List.take_nil]
  rw [this]
  rfl

theorem Substring_empty_witness :
    Substring (utf8 "hello") 0 0 = Outcome.ok [] ∧
      Substring (utf8 "hello") 10 3 = Outcome.ok [] :=
  ⟨Substring_empty (utf8 "hello") 0 0 (by decide) (Or.inl rfl),
    Substring_empty (utf8 "hello") 10 3 (by decide) (Or.inr (by decide))⟩

theorem selectRunes_length_le (rs : List Nat) (blen : Nat) (offset : Int) (length : Nat) :
    (selectRunes rs blen offset length).length ≤ length := by
  unfold selectRunes
  split_ifs
  · simp
  · rw [List.length_take]; omega
  · rw [List.length_take]; omega
  · rw [List.length_drop]; omega
  · rw [List.length_drop, List.length_take]; omega

theorem selectRunes_contiguous (rs : List Nat) (blen : Nat) (offset : Int) (length : Nat) :
    ∃ a b, selectRunes rs blen offset length = (rs.drop a).take b := by
  unfold selectRunes
  split_ifs
  · exact ⟨0, 0, by simp⟩
  · exact ⟨_, _, rfl⟩
  · exact ⟨0, length, by rw [List.drop_zero]⟩
  · exact ⟨_, (rs.drop (rs.length - (-offset).toNat)).length, by rw [List.take_length]⟩
  · exact ⟨_, _, List.drop_take _ _ _⟩

theorem selectRunes_valid (rs : List Nat) (hv : AllValid rs) (blen : Nat) (offset : Int)
    (length : Nat) : AllValid (selectRunes rs blen offset length) := by
  obtain ⟨a, b, h⟩ := selectRunes_contiguous rs blen offset length
  rw [h]
  exact allValid_take _ _ (allValid_drop _ _ hv)

/-- C6. Length is an upper bound: for a well-formed string, `Substring` returns
a string of at most `length` runes. -/
theorem Substring_length_bound (str : GoString) (offset : Int) (length : Nat)
    (hv : ValidString str = true) :
    ∃ out, Substring str offset length = Outcome.ok out ∧ RuneCountInString out ≤ length := by
  obtain ⟨hrs, henc, _⟩ := encodeRunes_toRunes str hv
  have hsel := selectRunes_valid (toRunes str) hrs str.length offset length
  refine ⟨_, by conv_lhs => rw [← henc, Substring_encodeRunes _ hrs, henc], ?_⟩
  have hf : AllValid ((selectRunes (toRunes str) str.length offset length).filter
      (fun r => r != 0)) := fun r hr => hsel r (List.mem_of_mem_filter hr)
  rw [removeNul_encodeRunes _ hsel, runeCount_encodeRunes _ hf]
  exact Nat.le_trans (List.length_filter_le _ _) (selectRunes_length_le _ _ _ _)

theorem Substring_length_bound_witness :
    Substring (utf8 "a😀b€c") (-4) 2 = Outcome.ok (utf8 "😀b") ∧
      RuneCountInString (utf8 "😀b") ≤ 2 := by
  obtain ⟨out, h1, h2⟩ := Substring_length_bound (utf8 "a😀b€c") (-4) 2 (by decide)
  have h3 : Substring (utf8 "a😀b€c") (-4) 2 = Outcome.ok (utf8 "😀b") := by decide
  rw [h3] at h1
  injection h1 with h1
  subst h1
  exact ⟨h3, h2⟩

/-- C7. Multi-byte safety: for a well-formed string, `substring` returns without
panic a well-formed string whose runes are a contiguous run of the runes of the
input, so the repair step of `Substring` leaves it unchanged. -/
theorem substring_cuts_at_rune_boundaries (str : GoString) (offset : Int) (length : Nat)
    (hv : ValidString str = true) :
    ∃ out, substring str offset length = Outcome.ok out ∧ ValidString out = true ∧
      (∃ a b, toRunes out = ((toRunes str).drop a).take b) ∧ repair out = out := by
  obtain ⟨hrs, henc, _⟩ := encodeRunes_toRunes str hv
  have hsel := selectRunes_valid (toRunes str) hrs str.length offset length
  have hval := validString_encodeRunes _ hsel
  refine ⟨_, by conv_lhs => rw [← henc, substring_encodeRunes _ hrs, henc], hval, ?_,
    repair_of_valid _ hval⟩
  rw [toRunes_encodeRunes _ hsel]
  exact selectRunes_contiguous _ _ _ _

theorem substring_cuts_at_rune_boundaries_witness :
    substring (utf8 "a😀b€c") 1 3 = Outcome.ok (utf8 "😀b€") ∧
      ValidString (utf8 "😀b€") = true ∧ repair (utf8 "😀b€") = utf8 "😀b€" := by
  obtain ⟨out, h1, h2, _, h4⟩ := substring_cuts_at_rune_boundaries (utf8 "a😀b€c") 1 3 (by decide)
  have h5 : substring (utf8 "a😀b€c") 1 3 = Outcome.ok (utf8 "😀b€") := by decide
  rw [h5] at h1
  injection h1 with h1
  subst h1
  exact ⟨h5, h2, h4⟩

/-- C8. Null stripping: whenever `Substring` returns, for any string, offset and
length, the returned string contains no NUL byte. -/
theorem Substring_no_nul (str : GoString) (offset : Int) (length : Nat) (out : GoString)
    (h : Substring str offset length = Outcome.ok out) : (0 : UInt8) ∉ out := by
  unfold Substring at h
  cases hs : substring str offset length with
  | ok s =>
    rw [hs, bind_ok] at h
    injection h with h
    rw [← h]
    exact removeNul_no_zero _
  | panic m => rw [hs] at h; exact absurd h (by simp [Outcome.bind])
  | timeout => rw [hs] at h; exact absurd h (by simp [Outcome.bind])

theorem Substring_no_nul_witness :
    Substring [0x61, 0x00, 0xFF, 0x00, 0x62] 0 5 = Outcome.ok [0x61, 0xEF, 0xBF, 0xBD, 0x62] ∧
      (0 : UInt8) ∉ [0x61, 0xEF, 0xBF, 0xBD, 0x62] :=
  ⟨by decide, Substring_no_nul [0x61, 0x00, 0xFF, 0x00, 0x62] 0 5 _ (by decide)⟩

/-! ## `RandomString` -/

theorem wrapInt_of_range (x : Int) (h1 : -(2 ^ 63) ≤ x) (h2 : x < 2 ^ 63) : wrapInt x = x := by
  unfold wrapInt; omega

theorem le_or_left (a b : Nat) : a ≤ a ||| b := by
  apply Nat.le_of_testBit
  intro i h
  rw [Nat.testBit_or, h]
  rfl

theorem maximumCapacity_eq : maximumCapacity = 2 ^ 62 := by
  unfold maximumCapacity; norm_num

theorem lor_shift_cast (a k : Nat) :
    Int.lor (a : Int) ((a : Int) >>> k) = ((a ||| a >>> k : Nat) : Int) := rfl

/-- The result of `nearestPowerOfTwo` on a slice length of at least 2 lies
between 2 and `maximumCapacity`. -/
theorem nearestPowerOfTwo_bounds (len : Nat) (h1 : 2 ≤ len) (h2 : len < 2 ^ 63) :
    2 ≤ nearestPowerOfTwo (len : Int) ∧ nearestPowerOfTwo (len : Int) ≤ 2 ^ 62 := by
  obtain ⟨m, rfl⟩ : ∃ m, len = m + 1 := ⟨len - 1, by omega⟩
  have hw : wrapInt (((m + 1 : Nat) : Int) - 1) = (m : Int) := by
    rw [wrapInt_of_range] <;> push_cast <;> omega
  unfold nearestPowerOfTwo
  simp only [hw, lor_shift_cast, maximumCapacity_eq]
  have h16 := le_or_left
    ((((m ||| m >>> 1) ||| (m ||| m >>> 1) >>> 2) |||
      ((m ||| m >>> 1) ||| (m ||| m >>> 1) >>> 2) >>> 4) |||
      (((m ||| m >>> 1) ||| (m ||| m >>> 1) >>> 2) |||
      ((m ||| m >>> 1) ||| (m ||| m >>> 1) >>> 2) >>> 4) >>> 8)
    (((((m ||| m >>> 1) ||| (m ||| m >>> 1) >>> 2) |||
      ((m ||| m >>> 1) ||| (m ||| m >>> 1) >>> 2) >>> 4) |||
      (((m ||| m >>> 1) ||| (m ||| m >>> 1) >>> 2) |||
      ((m ||| m >>> 1) ||| (m ||| m >>> 1) >>> 2) >>> 4) >>> 8) >>> 16)
  have h8 := le_or_left
    (((m ||| m >>> 1) ||| (m ||| m >>> 1) >>> 2) |||
      ((m ||| m >>> 1) ||| (m ||| m >>> 1) >>> 2) >>> 4)
    ((((m ||| m >>> 1) ||| (m ||| m >>> 1) >>> 2) |||
      ((m ||| m >>> 1) ||| (m ||| m >>> 1) >>> 2) >>> 4) >>> 8)
  have h4 := le_or_left ((m ||| m >>> 1) ||| (m ||| m >>> 1) >>> 2)
    (((m ||| m >>> 1) ||| (m ||| m >>> 1) >>> 2) >>> 4)
  have h2' := le_or_left (m ||| m >>> 1) ((m ||| m >>> 1) >>> 2)
  have h1' := le_or_left m (m >>> 1)
  generalize (((((m ||| m >>> 1) ||| (m ||| m >>> 1) >>> 2) |||
      ((m ||| m >>> 1) ||| (m ||| m >>> 1) >>> 2) >>> 4) |||
      (((m ||| m >>> 1) ||| (m ||| m >>> 1) >>> 2) |||
      ((m ||| m >>> 1) ||| (m ||| m >>> 1) >>> 2) >>> 4) >>> 8) |||
      ((((m ||| m >>> 1) ||| (m ||| m >>> 1) >>> 2) |||
      ((m ||| m >>> 1) ||| (m ||| m >>> 1) >>> 2) >>> 4) |||
      (((m ||| m >>> 1) ||| (m ||| m >>> 1) >>> 2) |||
      ((m ||| m >>> 1) ||| (m ||| m >>> 1) >>> 2) >>> 4) >>> 8) >>> 16) = M at h16 ⊢
  have hM : m ≤ M := by omega
  split_ifs <;> omega

theorem ilog2_pos (fuel x : Nat) (h : 2 ≤ x) : 1 ≤ ilog2 (fuel + 1) x := by
  simp only [ilog2, h, if_true]; omega

/-- For a charset of at least two elements the bit width is not zero, so the
division of line 65 is defined. -/
theorem letterIDBits_pos (len : Nat) (h1 : 2 ≤ len) (h2 : len < 2 ^ 63) :
    1 ≤ log2Int (nearestPowerOfTwo (len : Int)) := by
  have hb := nearestPowerOfTwo_bounds len h1 h2
  unfold log2Int
  apply ilog2_pos
  omega

theorem sampleLoop_no_panic (rand : Nat → Nat) (charset : List Int) (bits mask : Nat)
    (max : Int) (msg : String) :
    ∀ (fuel : Nat) (i : Int) (cache : Nat) (remain : Int) (k : Nat) (sb : GoString),
      sampleLoop rand charset bits mask max fuel i cache remain k sb ≠ Outcome.panic msg := by
  intro fuel
  induction fuel with
  | zero => intro i cache remain k sb h; simp [sampleLoop] at h
  | succ fuel ih =>
    intro i cache remain k sb
    simp only [sampleLoop]
    generalize (if remain = 0 then rand k else cache) = c1
    generalize (if remain = 0 then k + 1 else k) = k1
    generalize (if remain = 0 then max else remain) = r1
    by_cases h1 : 0 ≤ i
    · rw [if_pos h1]
      by_cases h2 : c1 &&& mask < charset.length
      · rw [if_pos h2, List.getElem?_eq_getElem h2]
        exact ih _ _ _ _ _
      · rw [if_neg h2]
        exact ih _ _ _ _ _
    · rw [if_neg h1]
      intro h
      cases h

theorem writeRune_valid (c : Int) : ∃ r, ValidRune r = true ∧ WriteRune c = encodeRune r := by
  unfold WriteRune
  by_cases h : ValidRune (c % 4294967296).toNat = true
  · exact ⟨_, h, rfl⟩
  · refine ⟨RuneError, by decide, ?_⟩
    rw [encode_invalid _ (by simpa using h)]
    decide

theorem writeRepeated_spec (c : Int) :
    ∀ (n : Nat) (sb : GoString) (rs : List Nat), AllValid rs → sb = encodeRunes rs →
      ∃ rs1, AllValid rs1 ∧ writeRepeated c n sb = encodeRunes rs1 ∧
        rs1.length = rs.length + n := by
  intro n
  induction n with
  | zero => intro sb rs hv hsb; exact ⟨rs, hv, hsb, rfl⟩
  | succ n ih =>
    intro sb rs hv hsb
    obtain ⟨r, hr, hw⟩ := writeRune_valid c
    have hv1 : AllValid (rs ++ [r]) :=
      (allValid_append rs [r]).mpr ⟨hv, (allValid_cons r []).mpr ⟨hr, fun _ h => by simp at h⟩⟩
    obtain ⟨rs1, h1, h2, h3⟩ := ih (sb ++ WriteRune c) (rs ++ [r]) hv1
      (by rw [hsb, hw, encodeRunes_snoc])
    refine ⟨rs1, h1, h2, ?_⟩
    rw [h3, List.length_append, List.length_singleton]; omega

/-- The sampling loop keeps `runes written + (i + 1)` constant: when it returns,
it has written `i + 1` further runes. -/
theorem sampleLoop_count (rand : Nat → Nat) (charset : List Int) (bits mask : Nat) (max : Int) :
    ∀ (fuel : Nat) (i : Int) (cache : Nat) (remain : Int) (k : Nat) (sb : GoString)
      (s : GoString) (k2 : Nat) (rs : List Nat), -1 ≤ i → AllValid rs → sb = encodeRunes rs →
      sampleLoop rand charset bits mask max fuel i cache remain k sb = Outcome.ok (s, k2) →
      ∃ rs1, AllValid rs1 ∧ s = encodeRunes rs1 ∧ (rs1.length : Int) = (rs.length : Int) + (i + 1) := by
  intro fuel
  induction fuel with
  | zero => intro i cache remain k sb s k2 rs _ _ _ h; simp [sampleLoop] at h
  | succ fuel ih =>
    intro i cache remain k sb s k2 rs hi hv hsb h
    simp only [sampleLoop] at h
    generalize (if remain = 0 then rand k else cache) = c1 at h
    generalize (if remain = 0 then k + 1 else k) = k1 at h
    generalize (if remain = 0 then max else remain) = r1 at h
    by_cases h1 : 0 ≤ i
    · rw [if_pos h1] at h
      by_cases h2 : c1 &&& mask < charset.length
      · rw [if_pos h2, List.getElem?_eq_getElem h2] at h
        obtain ⟨r, hr, hw⟩ := writeRune_valid (charset[c1 &&& mask])
        have hv1 : AllValid (rs ++ [r]) :=
          (allValid_append rs [r]).mpr ⟨hv, (allValid_cons r []).mpr ⟨hr, fun _ h => by simp at h⟩⟩
        obtain ⟨rs1, h3, h4, h5⟩ := ih _ _ _ _ _ _ _ (rs ++ [r]) (by omega) hv1
          (by rw [hsb, hw, encodeRunes_snoc]) h
        refine ⟨rs1, h3, h4, ?_⟩
        rw [h5, List.length_append, List.length_singleton]; push_cast; omega
      · rw [if_neg h2] at h
        exact ih _ _ _ _ _ _ _ rs hi hv hsb h
    · rw [if_neg h1] at h
      injection h with h
      injection h with h h'
      exact ⟨rs, hv, by rw [← h, hsb], by omega⟩
/-- C9. `RandomString` panics exactly when its arguments are invalid, whatever
the random stream and the step budget: with `size <= 0` it panics with the size
message (checked first), with `size > 0` and an empty charset it panics with the
charset message, and with `size > 0` and a non-empty charset it does not panic
(no division by zero, no index out of range). The length of a Go slice fits an
`int`. -/
theorem RandomString_panics_iff (rand : Nat → Nat) (fuel : Nat) (size : Int)
    (charset : List Int) (hlen : charset.length < 2 ^ 63) :
    (size ≤ 0 → RandomString rand fuel size charset =
      Outcome.panic "lo.RandomString: size must be greater than 0") ∧
    (0 < size → charset = [] → RandomString rand fuel size charset =
      Outcome.panic "lo.RandomString: charset must not be empty") ∧
    ((∃ msg, RandomString rand fuel size charset = Outcome.panic msg) ↔
      (size ≤ 0 ∨ charset = [])) := by
  have hA : size ≤ 0 → RandomString rand fuel size charset =
      Outcome.panic "lo.RandomString: size must be greater than 0" := by
    intro h; unfold RandomString; rw [if_pos h]
  have hB : 0 < size → charset = [] → RandomString rand fuel size charset =
      Outcome.panic "lo.RandomString: charset must not be empty" := by
    intro h hc; unfold RandomString; rw [if_neg (by omega), if_pos (by rw [hc]; rfl)]
  refine ⟨hA, hB, ?_, ?_⟩
  · rintro ⟨msg, h⟩
    by_cases hs : size ≤ 0
    · exact Or.inl hs
    by_cases hc : charset = []
    · exact Or.inr hc
    exfalso
    have hc0 : charset.length ≠ 0 := fun h0 => hc (List.length_eq_zero.mp h0)
    unfold RandomString at h
    rw [if_neg hs, if_neg hc0] at h
    by_cases h1 : charset.length = 1
    · rw [if_pos h1, List.getElem?_eq_getElem (by omega)] at h
      cases h
    · rw [if_neg h1] at h
      have hbits := letterIDBits_pos charset.length (by omega) hlen
      simp only [] at h
      rw [if_neg (by omega)] at h
      exact sampleLoop_no_panic _ _ _ _ _ _ _ _ _ _ _ _ h
  · rintro (hs | hc)
    · exact ⟨_, hA hs⟩
    · by_cases hs : size ≤ 0
      · exact ⟨_, hA hs⟩
      · exact ⟨_, hB (by omega) hc⟩

theorem RandomString_panics_iff_witness :
    RandomString (fun _ => 0) 10 0 [] =
      Outcome.panic "lo.RandomString: size must be greater than 0" ∧
    RandomString (fun _ => 0) 10 3 [] =
      Outcome.panic "lo.RandomString: charset must not be empty" ∧
    ¬ (∃ msg, RandomString (fun _ => 5) 10 3 [97, 98, 99] = Outcome.panic msg) := by
  refine ⟨(RandomString_panics_iff (fun _ => 0) 10 0 [] (by decide)).1 (by decide),
    (RandomString_panics_iff (fun _ => 0) 10 3 [] (by decide)).2.1 (by decide) rfl, ?_⟩
  rw [(RandomString_panics_iff (fun _ => 5) 10 3 [97, 98, 99] (by decide)).2.2]
  decide

/-- C10. Sampler length invariant: whenever `RandomString` returns a string, for
any random stream and step budget (in particular the size is positive and the
charset non-empty, and the sampling loop has finished), the string holds exactly
`size` runes. -/
theorem RandomString_rune_count (rand : Nat → Nat) (fuel : Nat) (size : Int)
    (charset : List Int) (s : GoString) (k : Nat)
    (h : RandomString rand fuel size charset = Outcome.ok (s, k)) :
    (RuneCountInString s : Int) = size := by
  unfold RandomString at h
  by_cases hs : size ≤ 0
  · rw [if_pos hs] at h; cases h
  rw [if_neg hs] at h
  by_cases hc0 : charset.length = 0
  · rw [if_pos hc0] at h; cases h
  rw [if_neg hc0] at h
  have hnil : AllValid [] := fun _ h => by simp at h
  by_cases h1 : charset.length = 1
  · rw [if_pos h1, List.getElem?_eq_getElem (by omega)] at h
    injection h with h
    injection h with h h'
    obtain ⟨rs1, hv, he, hl⟩ := writeRepeated_spec (charset[0]) size.toNat [] [] hnil rfl
    rw [← h, he, runeCount_encodeRunes _ hv, hl]
    simp only [List.length_nil]
    omega
  · rw [if_neg h1] at h
    simp only [] at h
    by_cases hb : log2Int (nearestPowerOfTwo (charset.length : Int)) = 0
    · rw [if_pos hb] at h; cases h
    rw [if_neg hb] at h
    obtain ⟨rs1, hv, he, hl⟩ := sampleLoop_count _ _ _ _ _ _ _ _ _ _ _ _ _ [] (by omega) hnil rfl h
    rw [he, runeCount_encodeRunes _ hv, hl]
    simp only [List.length_nil]
    push_cast
    omega

theorem RandomString_rune_count_witness :
    RandomString (fun _ => 1101) 100 5 [120, 0x20AC, -7] =
        Outcome.ok (utf8 "€x€x€", 1) ∧
      (RuneCountInString (utf8 "€x€x€") : Int) = 5 := by
  have h : RandomString (fun _ => 1101) 100 5 [120, 0x20AC, -7] =
      Outcome.ok (utf8 "€x€x€", 1) := by decide
  exact ⟨h, RandomString_rune_count _ _ _ _ _ _ h⟩

/-! ## Further claims about `RandomString` -/

theorem writeRune_of_valid (c : Int) (h : ValidRuneInt c = true) :
    WriteRune c = encodeRune c.toNat := by
  simp only [ValidRuneInt, Bool.and_eq_true, decide_eq_true_eq] at h
  obtain ⟨h0, hv⟩ := h
  rw [validRune_iff] at hv
  unfold WriteRune
  congr 1
  omega

theorem writeRepeated_eq (c : Int) :
    ∀ (n : Nat) (sb : GoString),
      writeRepeated c n sb = sb ++ (List.replicate n (WriteRune c)).flatten := by
  intro n
  induction n with
  | zero => intro sb; simp [writeRepeated]
  | succ n ih =>
    intro sb
    rw [writeRepeated, ih, List.replicate_succ, List.flatten_cons, List.append_assoc]

theorem encodeRunes_replicate (r n : Nat) :
    encodeRunes (List.replicate n r) = (List.replicate n (encodeRune r)).flatten := by
  induction n with
  | zero => rfl
  | succ n ih => rw [List.replicate_succ, encodeRunes_cons, ih, List.replicate_succ,
      List.flatten_cons]

/-- C12. Single-character shortcut: for `size > 0` and any rune `c`,
`RandomString(size, [c])` returns `size` copies of what `WriteRune(c)` writes,
draws no value from the random source, and so is the same for every random
stream and step budget; when `c` is a valid rune the runes of the result are
`c` repeated `size` times. -/
theorem RandomString_single_char (rand : Nat → Nat) (fuel : Nat) (size : Int) (c : Int)
    (hs : 0 < size) :
    RandomString rand fuel size [c] =
      Outcome.ok ((List.replicate size.toNat (WriteRune c)).flatten, 0) ∧
    (ValidRuneInt c = true →
      toRunes ((List.replicate size.toNat (WriteRune c)).flatten) =
        List.replicate size.toNat c.toNat) := by
  constructor
  · unfold RandomString
    rw [if_neg (by omega), if_neg (by simp), if_pos (by simp)]
    simp only [List.getElem?_cons_zero]
    rw [writeRepeated_eq, List.nil_append]
  · intro hv
    rw [writeRune_of_valid c hv, ← encodeRunes_replicate]
    apply toRunes_encodeRunes
    intro r hr
    rw [List.eq_of_mem_replicate hr]
    simp only [ValidRuneInt, Bool.and_eq_true] at hv
    exact hv.2

theorem RandomString_single_char_witness :
    RandomString (fun k => k) 0 5 [120] = Outcome.ok (utf8 "xxxxx", 0) := by
  have h := (RandomString_single_char (fun k => k) 0 5 120 (by decide)).1
  rw [h]
  decide

/-- C15. Idempotence of the repair step: on a well-formed string the repair of
`Substring` returns the string unchanged, so repairing twice equals repairing
once. -/
theorem repair_idempotent_on_valid (s : GoString) (h : ValidString s = true) :
    repair s = s ∧ repair (repair s) = repair s := by
  have h1 := repair_of_valid s h
  exact ⟨h1, by rw [h1, h1]⟩

theorem repair_idempotent_on_valid_witness :
    repair (utf8 "a😀b€c") = utf8 "a😀b€c" ∧
      repair (repair (utf8 "a😀b€c")) = repair (utf8 "a😀b€c") :=
  repair_idempotent_on_valid (utf8 "a😀b€c") (by decide)

/-- The sampling loop appends what `WriteRune` writes for elements of the
charset, and nothing else. -/
theorem sampleLoop_members (rand : Nat → Nat) (charset : List Int) (bits mask : Nat) (max : Int) :
    ∀ (fuel : Nat) (i : Int) (cache : Nat) (remain : Int) (k : Nat) (sb : GoString)
      (s : GoString) (k2 : Nat),
      sampleLoop rand charset bits mask max fuel i cache remain k sb = Outcome.ok (s, k2) →
      ∃ cs : List Int, (∀ c ∈ cs, c ∈ charset) ∧ s = sb ++ (cs.map WriteRune).flatten := by
  intro fuel
  induction fuel with
  | zero => intro i cache remain k sb s k2 h; simp [sampleLoop] at h
  | succ fuel ih =>
    intro i cache remain k sb s k2 h
    simp only [sampleLoop] at h
    generalize (if remain = 0 then rand k else cache) = c1 at h
    generalize (if remain = 0 then k + 1 else k) = k1 at h
    generalize (if remain = 0 then max else remain) = r1 at h
    by_cases h1 : 0 ≤ i
    · rw [if_pos h1] at h
      by_cases h2 : c1 &&& mask < charset.length
      · rw [if_pos h2, List.getElem?_eq_getElem h2] at h
        obtain ⟨cs, hcs, hs⟩ := ih _ _ _ _ _ _ _ h
        refine ⟨charset[c1 &&& mask] :: cs, ?_, ?_⟩
        · intro c hc
          rcases List.mem_cons.mp hc with rfl | hc
          · exact List.getElem_mem h2
          · exact hcs c hc
        · rw [hs, List.map_cons, List.flatten_cons, List.append_assoc]
      · rw [if_neg h2] at h
        exact ih _ _ _ _ _ _ _ h
    · rw [if_neg h1] at h
      injection h with h
      injection h with h h'
      exact ⟨[], fun _ hc => by simp at hc, by rw [← h]; simp⟩

/-- Whatever `RandomString` returns is built from elements of the charset. -/
theorem RandomString_members (rand : Nat → Nat) (fuel : Nat) (size : Int) (charset : List Int)
    (s : GoString) (k : Nat) (h : RandomString rand fuel size charset = Outcome.ok (s, k)) :
    ∃ cs : List Int, (∀ c ∈ cs, c ∈ charset) ∧ s = (cs.map WriteRune).flatten := by
  unfold RandomString at h
  by_cases hs : size ≤ 0
  · rw [if_pos hs] at h; cases h
  rw [if_neg hs] at h
  by_cases hc0 : charset.length = 0
  · rw [if_pos hc0] at h; cases h
  rw [if_neg hc0] at h
  by_cases h1 : charset.length = 1
  · rw [if_pos h1, List.getElem?_eq_getElem (by omega)] at h
    injection h with h
    injection h with h h'
    refine ⟨List.replicate size.toNat charset[0], ?_, ?_⟩
    · intro c hc
      rw [List.eq_of_mem_replicate hc]
      exact List.getElem_mem _
    · rw [← h, writeRepeated_eq, List.nil_append, List.map_replicate]
  · rw [if_neg h1] at h
    simp only [] at h
    by_cases hb : log2Int (nearestPowerOfTwo (charset.length : Int)) = 0
    · rw [if_pos hb] at h; cases h
    rw [if_neg hb] at h
    obtain ⟨cs, hcs, hs⟩ := sampleLoop_members _ _ _ _ _ _ _ _ _ _ _ _ _ h
    exact ⟨cs, hcs, by rw [hs, List.nil_append]⟩

theorem flatten_map_writeRune (cs : List Int) (hv : ∀ c ∈ cs, ValidRuneInt c = true) :
    (cs.map WriteRune).flatten = encodeRunes (cs.map Int.toNat) ∧ AllValid (cs.map Int.toNat) := by
  induction cs with
  | nil => exact ⟨rfl, fun _ h => by simp at h⟩
  | cons c cs ih =>
    have hc := hv c (List.mem_cons_self _ _)
    obtain ⟨h1, h2⟩ := ih (fun x hx => hv x (List.mem_cons_of_mem _ hx))
    constructor
    · rw [List.map_cons, List.flatten_cons, h1, writeRune_of_valid c hc, List.map_cons,
        encodeRunes_cons]
    · rw [List.map_cons, allValid_cons]
      simp only [ValidRuneInt, Bool.and_eq_true] at hc
      exact ⟨hc.2, h2⟩

/-- C11 (as stated, fails). With a charset that holds a value that is not a
valid rune, here the surrogate `0xD800`, `RandomString` writes U+FFFD, which is
no element of the charset. -/
theorem RandomString_membership_fails_for_invalid_rune :
    RandomString (fun _ => 1) 10 1 [97, 0xD800] = Outcome.ok ([0xEF, 0xBF, 0xBD], 1) ∧
    toRunes [0xEF, 0xBF, 0xBD] = [0xFFFD] ∧
    ¬ (∀ r ∈ toRunes [0xEF, 0xBF, 0xBD], (r : Int) ∈ ([97, 0xD800] : List Int)) := by
  decide

/-- C11 (amended). Sampler membership invariant: for a charset of valid runes
(`utf8.ValidRune`), whenever `RandomString` returns, every rune of the result
is an element of the charset. -/
theorem RandomString_membership (rand : Nat → Nat) (fuel : Nat) (size : Int)
    (charset : List Int) (s : GoString) (k : Nat)
    (hv : ∀ c ∈ charset, ValidRuneInt c = true)
    (h : RandomString rand fuel size charset = Outcome.ok (s, k)) :
    ∀ r ∈ toRunes s, (r : Int) ∈ charset := by
  obtain ⟨cs, hcs, hs⟩ := RandomString_members rand fuel size charset s k h
  obtain ⟨h1, h2⟩ := flatten_map_writeRune cs (fun c hc => hv c (hcs c hc))
  rw [hs, h1, toRunes_encodeRunes _ h2]
  intro r hr
  obtain ⟨c, hc, rfl⟩ := List.mem_map.mp hr
  have hcv := hv c (hcs c hc)
  simp only [ValidRuneInt, Bool.and_eq_true, decide_eq_true_eq] at hcv
  rw [Int.toNat_of_nonneg hcv.1]
  exact hcs c hc

theorem RandomString_membership_witness :
    RandomString (fun _ => 1101) 100 5 [120, 0x20AC, 0x1F600] =
        Outcome.ok (utf8 "€x€x€", 1) ∧
      ∀ r ∈ toRunes (utf8 "€x€x€"), (r : Int) ∈ ([120, 0x20AC, 0x1F600] : List Int) := by
  have h : RandomString (fun _ => 1101) 100 5 [120, 0x20AC, 0x1F600] =
      Outcome.ok (utf8 "€x€x€", 1) := by decide
  exact ⟨h, RandomString_membership _ _ _ _ _ _ (by decide) h⟩

/-! ## Claims about `nearestPowerOfTwo` and the bit width -/

/-- C16 (the code departs from the claim). For `n = 2^32 + 1`, inside
`1 <= n <= maximumCapacity`, `nearestPowerOfTwo` returns `2^33 - 1`, which is
not a power of two; the smallest power of two above `n` is `2^33`. The smear
stops at `n >> 16` and so fills only 32 bits below the leading one. -/
theorem nearestPowerOfTwo_not_power_of_two :
    (1 : Int) ≤ 2 ^ 32 + 1 ∧ (2 ^ 32 + 1 : Int) ≤ maximumCapacity ∧
    nearestPowerOfTwo (2 ^ 32 + 1) = 2 ^ 33 - 1 ∧
    nearestPowerOfTwo (2 ^ 32 + 1) ≠ 2 ^ 33 ∧
    ∀ k : Nat, nearestPowerOfTwo (2 ^ 32 + 1) ≠ 2 ^ k := by
  have h : nearestPowerOfTwo (2 ^ 32 + 1) = 2 ^ 33 - 1 := by decide
  refine ⟨by decide, by decide, h, by decide, ?_⟩
  intro k hk
  rw [h] at hk
  cases k with
  | zero => simp at hk
  | succ k =>
    rw [pow_succ] at hk
    omega

/-- C17 (as stated, fails). For the non-positive input `math.MinInt = -2^63`
the subtraction `capacity - 1` wraps around to `math.MaxInt`, the test `n < 0`
fails and `nearestPowerOfTwo` returns `maximumCapacity = 2^62`, not 1. -/
theorem nearestPowerOfTwo_minInt :
    (-(2 ^ 63) : Int) ≤ 0 ∧ wrapInt (-(2 ^ 63) - 1) = 2 ^ 63 - 1 ∧
    nearestPowerOfTwo (-(2 ^ 63)) = 2 ^ 62 ∧ nearestPowerOfTwo (-(2 ^ 63)) ≠ 1 := by
  decide

theorem ilog2_le (fuel : Nat) : ∀ (x k : Nat), x < 2 ^ (k + 1) → ilog2 fuel x ≤ k := by
  induction fuel with
  | zero => intro x k _; simp [ilog2]
  | succ fuel ih =>
    intro x k h
    simp only [ilog2]
    by_cases hx : 2 ≤ x
    · rw [if_pos hx]
      cases k with
      | zero => simp at h; omega
      | succ k =>
        have : x / 2 < 2 ^ (k + 1) := by
          rw [pow_succ] at h
          omega
        have := ih (x / 2) k this
        omega
    · rw [if_neg hx]; omega

/-- The bit width lies between 1 and 62 for a charset of at least two elements. -/
theorem letterIDBits_bounds (len : Nat) (h1 : 2 ≤ len) (h2 : len < 2 ^ 63) :
    1 ≤ log2Int (nearestPowerOfTwo (len : Int)) ∧
      log2Int (nearestPowerOfTwo (len : Int)) ≤ 62 := by
  refine ⟨letterIDBits_pos len h1 h2, ?_⟩
  have hb := nearestPowerOfTwo_bounds len h1 h2
  unfold log2Int
  apply ilog2_le
  have : (nearestPowerOfTwo (len : Int)).toNat ≤ 2 ^ 62 := by omega
  omega

/-- C20. The division of the bit-width calculation is guarded: for a charset of
at least two elements `letterIDBits` lies between 1 and 62, `letterIDMax =
63 / letterIDBits` is at least 1 and `letterIDMax * letterIDBits <= 63`; among
non-empty charsets `letterIDBits == 0` occurs for length 1 only, the case of the
early return. The length of a Go slice fits an `int`. -/
theorem letterIDBits_guarded (len : Nat) (h1 : 1 ≤ len) (h2 : len < 2 ^ 63) :
    (2 ≤ len →
      1 ≤ log2Int (nearestPowerOfTwo (len : Int)) ∧
      log2Int (nearestPowerOfTwo (len : Int)) ≤ 62 ∧
      1 ≤ (63 : Int) / (log2Int (nearestPowerOfTwo (len : Int)) : Int) ∧
      (63 : Int) / (log2Int (nearestPowerOfTwo (len : Int)) : Int) *
        (log2Int (nearestPowerOfTwo (len : Int)) : Int) ≤ 63) ∧
    (log2Int (nearestPowerOfTwo (len : Int)) = 0 ↔ len = 1) := by
  constructor
  · intro h
    obtain ⟨hb1, hb2⟩ := letterIDBits_bounds len h h2
    refine ⟨hb1, hb2, ?_, ?_⟩
    · generalize log2Int (nearestPowerOfTwo (len : Int)) = b at hb1 hb2
      interval_cases b <;> decide
    · generalize log2Int (nearestPowerOfTwo (len : Int)) = b at hb1 hb2
      interval_cases b <;> decide
  · constructor
    · intro h0
      by_contra hne
      have := (letterIDBits_bounds len (by omega) h2).1
      omega
    · intro h
      subst h
      decide

theorem letterIDBits_guarded_witness :
    log2Int (nearestPowerOfTwo ((62 : Nat) : Int)) = 6 ∧
      (63 : Int) / (log2Int (nearestPowerOfTwo ((62 : Nat) : Int)) : Int) = 10 ∧
      1 ≤ log2Int (nearestPowerOfTwo ((62 : Nat) : Int)) ∧
      log2Int (nearestPowerOfTwo ((62 : Nat) : Int)) ≤ 62 := by
  have h := (letterIDBits_guarded 62 (by decide) (by decide)).1 (by decide)
  exact ⟨by decide, by decide, h.1, h.2.1⟩

/-- C19 (the code departs from the claim). For a charset of `2^32 + 1` elements
the bit width is 32, so the index `2^32` of the last element is above every
chunk value: not every index is reachable. The cause is the result `2^33 - 1` of
`nearestPowerOfTwo`, see C16. -/
theorem letterIDBits_too_small :
    log2Int (nearestPowerOfTwo ((2 ^ 32 + 1 : Nat) : Int)) = 32 ∧
    ¬ (2 ^ 32 + 1 ≤ 2 ^ log2Int (nearestPowerOfTwo ((2 ^ 32 + 1 : Nat) : Int))) ∧
    ∀ cache : Nat,
      cache &&& (2 ^ log2Int (nearestPowerOfTwo ((2 ^ 32 + 1 : Nat) : Int)) - 1) < 2 ^ 32 := by
  have h : log2Int (nearestPowerOfTwo ((2 ^ 32 + 1 : Nat) : Int)) = 32 := by decide
  refine ⟨h, by rw [h]; decide, ?_⟩
  intro cache
  rw [h, Nat.and_pow_two_sub_one_eq_mod]
  exact Nat.mod_lt _ (by decide)

/-! ## The sampling loop and the chunk sequence -/

/-- From chunk `n` to chunk `n + 1`: the next field of the same random value, or
the first field of the next value. -/
theorem chunk_next (maxD n : Nat) (hmax : 1 ≤ maxD) :
    (n % maxD + 1 < maxD ∧ (n + 1) % maxD = n % maxD + 1 ∧ (n + 1) / maxD = n / maxD) ∨
    (n % maxD + 1 = maxD ∧ (n + 1) % maxD = 0 ∧ (n + 1) / maxD = n / maxD + 1) := by
  have hlt : n % maxD < maxD := Nat.mod_lt _ (by omega)
  have hdm : n % maxD + maxD * (n / maxD) = n := Nat.mod_add_div n maxD
  by_cases h : n % maxD + 1 < maxD
  · left
    have := (Nat.div_mod_unique (a := n + 1) (b := maxD) (c := n % maxD + 1) (d := n / maxD)
      (by omega)).mpr ⟨by omega, h⟩
    exact ⟨h, this.2, this.1⟩
  · right
    have := (Nat.div_mod_unique (a := n + 1) (b := maxD) (c := 0) (d := n / maxD + 1)
      (by omega)).mpr ⟨by rw [Nat.mul_add, Nat.mul_one]; omega, by omega⟩
    exact ⟨by omega, this.2, this.1⟩

/-- The sampling loop from chunk `n` on. Before chunk `n` is read either the
cache is used up and will be redrawn, or it holds the current random value
shifted to chunk `n`; if enough of the next `m` chunks are accepted, the loop
returns the elements they pick. -/
theorem sampleLoop_refines (rand : Nat → Nat) (charset : List Int) (bits maxD : Nat)
    (hmax : 1 ≤ maxD) :
    ∀ (m n fuel : Nat) (i : Int) (cache : Nat) (remain : Int) (k : Nat) (sb : GoString),
      ((remain = 0 ∧ n % maxD = 0 ∧ k = n / maxD) ∨
        (remain = ((maxD - n % maxD : Nat) : Int) ∧
          cache = rand (n / maxD) >>> (n % maxD * bits) ∧ k = n / maxD + 1)) →
      -1 ≤ i →
      (i + 1).toNat ≤ (((List.range' n m).map (chunkAt rand bits maxD)).filter
        (fun c => decide (c < charset.length))).length →
      m < fuel →
      ∃ k2, sampleLoop rand charset bits (2 ^ bits - 1) (maxD : Int) fuel i cache remain k sb =
        Outcome.ok (sb ++ ((((((List.range' n m).map (chunkAt rand bits maxD)).filter
          (fun c => decide (c < charset.length))).take (i + 1).toNat).filterMap
            (fun c => charset[c]?)).map WriteRune).flatten, k2) := by
  intro m
  induction m with
  | zero =>
    intro n fuel i cache remain k sb _ hi hacc hf
    obtain ⟨f, rfl⟩ : ∃ f, fuel = f + 1 := ⟨fuel - 1, by omega⟩
    simp only [List.range'_zero, List.map_nil, List.filter_nil, List.length_nil] at hacc
    have hi' : ¬ 0 ≤ i := by omega
    simp only [sampleLoop, hi', if_false, List.range'_zero, List.map_nil, List.filter_nil,
      List.take_nil, List.filterMap_nil, List.flatten_nil, List.append_nil]
    exact ⟨k, rfl⟩
  | succ m ih =>
    intro n fuel i cache remain k sb hinv hi hacc hf
    obtain ⟨f, rfl⟩ : ∃ f, fuel = f + 1 := ⟨fuel - 1, by omega⟩
    by_cases h0 : 0 ≤ i
    · -- the cache after the redraw
      have hstate : (if remain = 0 then rand k else cache) = rand (n / maxD) >>> (n % maxD * bits) ∧
          (if remain = 0 then (maxD : Int) else remain) = ((maxD - n % maxD : Nat) : Int) ∧
          (if remain = 0 then k + 1 else k) = n / maxD + 1 := by
        have hlt : n % maxD < maxD := Nat.mod_lt _ (by omega)
        rcases hinv with ⟨h1, h2, h3⟩ | ⟨h1, h2, h3⟩
        · rw [if_pos h1, if_pos h1, if_pos h1, h2, h3]
          simp
        · have hr : ¬ remain = 0 := by omega
          rw [if_neg hr, if_neg hr, if_neg hr]
          exact ⟨h2, h1, h3⟩
      obtain ⟨hc1, hr1, hk1⟩ := hstate
      have hchunk : (if remain = 0 then rand k else cache) &&& (2 ^ bits - 1) =
          chunkAt rand bits maxD n := by
        rw [hc1]; rfl
      -- the state after the chunk
      have hnext : ((if remain = 0 then (maxD : Int) else remain) - 1 = 0 ∧
            (n + 1) % maxD = 0 ∧ (if remain = 0 then k + 1 else k) = (n + 1) / maxD) ∨
          ((if remain = 0 then (maxD : Int) else remain) - 1 =
              ((maxD - (n + 1) % maxD : Nat) : Int) ∧
            (if remain = 0 then rand k else cache) >>> bits =
              rand ((n + 1) / maxD) >>> ((n + 1) % maxD * bits) ∧
            (if remain = 0 then k + 1 else k) = (n + 1) / maxD + 1) := by
        rw [hc1, hr1, hk1]
        rcases chunk_next maxD n hmax with ⟨h1, h2, h3⟩ | ⟨h1, h2, h3⟩
        · right
          rw [h2, h3]
          refine ⟨by omega, ?_, rfl⟩
          rw [← Nat.shiftRight_add, Nat.add_mul, Nat.one_mul]
        · left
          rw [h2, h3]
          exact ⟨by omega, rfl, rfl⟩
      simp only [sampleLoop, h0, if_true, hchunk]
      rw [List.range'_succ, List.map_cons] at hacc ⊢
      by_cases hlt : chunkAt rand bits maxD n < charset.length
      · rw [if_pos hlt, List.getElem?_eq_getElem hlt]
        rw [List.filter_cons_of_pos (by simpa using hlt)] at hacc ⊢
        simp only [List.length_cons] at hacc
        obtain ⟨k2, hk2⟩ := ih (n + 1) f (i - 1) _ _ _ (sb ++ WriteRune charset[chunkAt rand bits maxD n])
          hnext (by omega) (by omega) (by omega)
        refine ⟨k2, ?_⟩
        dsimp only
        rw [hk2]
        have e1 : (i + 1).toNat = (i - 1 + 1).toNat + 1 := by omega
        rw [e1, List.take_succ_cons, List.filterMap_cons_some (List.getElem?_eq_getElem hlt),
          List.map_cons, List.flatten_cons, List.append_assoc]
      · rw [if_neg hlt]
        rw [List.filter_cons_of_neg (by simpa using hlt)] at hacc ⊢
        exact ih (n + 1) f i _ _ _ sb hnext hi hacc (by omega)
    · have e0 : (i + 1).toNat = 0 := by omega
      simp only [sampleLoop, h0, if_false, e0, List.take_zero, List.filterMap_nil, List.map_nil,
        List.flatten_nil, List.append_nil]
      exact ⟨k, rfl⟩

theorem filterMap_getElem_length (charset : List Int) (l : List Nat)
    (h : ∀ c ∈ l, c < charset.length) :
    (l.filterMap (fun c => charset[c]?)).length = l.length := by
  induction l with
  | nil => rfl
  | cons c l ih =>
    have hc := h c (List.mem_cons_self _ _)
    rw [List.filterMap_cons_some (List.getElem?_eq_getElem hc), List.length_cons,
      List.length_cons, ih (fun x hx => h x (List.mem_cons_of_mem _ hx))]

/-- C18. The sampler follows the bit-packing algorithm: with `bits =
log2(nearestPowerOfTwo(len(charset)))` and `maxDraws = 63 / bits`, if at least
`size` of the first `m` chunks of the random stream are below `len(charset)`,
then with a step budget above `m` `RandomString` returns the elements of the
charset picked by the first `size` such chunks, in order, each written by
`WriteRune`; these are `size` elements, and rejected chunks write nothing. -/
theorem RandomString_refines_bit_packing (rand : Nat → Nat) (size : Int) (charset : List Int)
    (m fuel : Nat) (hs : 0 < size) (hc : 2 ≤ charset.length) (hlen : charset.length < 2 ^ 63)
    (hacc : size.toNat ≤ acceptedCount rand charset m) (hfuel : m < fuel) :
    (∃ k, RandomString rand fuel size charset =
      Outcome.ok (((pickedRunes rand charset size.toNat m).map WriteRune).flatten, k)) ∧
    (pickedRunes rand charset size.toNat m).length = size.toNat := by
  obtain ⟨hb1, hb2⟩ := letterIDBits_bounds charset.length hc hlen
  unfold acceptedCount at hacc
  unfold pickedRunes
  simp only [] at hacc ⊢
  generalize hbits : log2Int (nearestPowerOfTwo (charset.length : Int)) = bits at hb1 hb2 hacc ⊢
  have hmax : 1 ≤ 63 / bits := Nat.div_pos (by omega) (by omega)
  constructor
  · unfold RandomString
    rw [if_neg (by omega), if_neg (by omega), if_neg (by omega)]
    simp only [hbits]
    rw [if_neg (by omega)]
    have hcast : (63 : Int) / (bits : Int) = ((63 / bits : Nat) : Int) := by
      push_cast; rfl
    rw [hcast]
    rw [List.range_eq_range'] at hacc ⊢
    have hsz : size.toNat = (size - 1 + 1).toNat := by congr 1; omega
    rw [hsz] at hacc ⊢
    obtain ⟨k2, hk2⟩ := sampleLoop_refines rand charset bits (63 / bits) hmax m 0 fuel (size - 1)
      (rand 0) ((63 / bits : Nat) : Int) 1 []
      (Or.inr ⟨by simp, by simp, by simp⟩) (by omega) hacc hfuel
    exact ⟨k2, by rw [hk2, List.nil_append]⟩
  · rw [filterMap_getElem_length]
    · rw [List.length_take]
      omega
    · intro c hc
      have := List.mem_of_mem_take hc
      simpa using (List.mem_filter.mp this).2

set_option maxRecDepth 8192 in
theorem RandomString_refines_bit_packing_witness :
    RandomString (fun _ => 1101) 7 5 [120, 0x20AC, 0x1F600] = Outcome.ok (utf8 "€x€x€", 1) ∧
      (pickedRunes (fun _ => 1101) [120, 0x20AC, 0x1F600] (5 : Int).toNat 6).length =
        (5 : Int).toNat := by
  obtain ⟨⟨k, hk⟩, hlen⟩ := RandomString_refines_bit_packing (fun _ => 1101) 5
    [120, 0x20AC, 0x1F600] 6 7 (by decide) (by decide) (by decide) (by decide) (by decide)
  have e : ((pickedRunes (fun _ => 1101) [120, 0x20AC, 0x1F600] (5 : Int).toNat 6).map
      WriteRune).flatten = utf8 "€x€x€" := by decide
  have h1 : RandomString (fun _ => 1101) 7 5 [120, 0x20AC, 0x1F600] =
      Outcome.ok (utf8 "€x€x€", 1) := by decide
  rw [e, h1] at hk
  injection hk with hk
  injection hk with _ hk
  subst hk
  exact ⟨h1, hlen⟩

/-! ## Decoding steps of arbitrary strings -/

theorem encodeRune_head_start (r : Nat) (hv : ValidRune r = true) :
    RuneStart (byteAt (encodeRune r) 0) = true := by
  rw [validRune_iff] at hv
  by_cases h1 : r ≤ 0x7F
  · rw [encode_one r h1, byteAt_cons_zero, byte_toNat]; apply runeStart_true; omega
  by_cases h2 : r ≤ 0x7FF
  · rw [encode_two r (by omega) h2, byteAt_cons_zero, byte_toNat]; apply runeStart_true; omega
  by_cases h3 : r ≤ 0xFFFF
  · rw [encode_three r (by omega) (by omega), byteAt_cons_zero, byte_toNat]
    apply runeStart_true; omega
  · rw [encode_four r (by omega) (by omega), byteAt_cons_zero, byte_toNat]
    apply runeStart_true; omega

theorem encodeRune_tail_not_start (r : Nat) (hv : ValidRune r = true) (k : Nat) (hk : 1 ≤ k)
    (hk2 : k < (encodeRune r).length) : RuneStart (byteAt (encodeRune r) k) = false := by
  rw [validRune_iff] at hv
  by_cases h1 : r ≤ 0x7F
  · rw [encode_one r h1] at hk2; simp at hk2; omega
  by_cases h2 : r ≤ 0x7FF
  · rw [encode_two r (by omega) h2] at hk2 ⊢
    simp only [List.length_cons, List.length_nil] at hk2
    obtain rfl : k = 1 := by omega
    simp only [byteAt_cons_succ, byteAt_cons_zero, byte_toNat]
    apply runeStart_false <;> omega
  by_cases h3 : r ≤ 0xFFFF
  · rw [encode_three r (by omega) (by omega)] at hk2 ⊢
    simp only [List.length_cons, List.length_nil] at hk2
    obtain rfl | rfl : k = 1 ∨ k = 2 := by omega
    · simp only [byteAt_cons_succ, byteAt_cons_zero, byte_toNat]
      apply runeStart_false <;> omega
    · simp only [byteAt_cons_succ, byteAt_cons_zero, byte_toNat]
      apply runeStart_false <;> omega
  · rw [encode_four r (by omega) (by omega)] at hk2 ⊢
    simp only [List.length_cons, List.length_nil] at hk2
    obtain rfl | rfl | rfl : k = 1 ∨ k = 2 ∨ k = 3 := by omega
    · simp only [byteAt_cons_succ, byteAt_cons_zero, byte_toNat]
      apply runeStart_false <;> omega
    · simp only [byteAt_cons_succ, byteAt_cons_zero, byte_toNat]
      apply runeStart_false <;> omega
    · simp only [byteAt_cons_succ, byteAt_cons_zero, byte_toNat]
      apply runeStart_false <;> omega

theorem decode_encode_ne_error (r : Nat) (h : (r, (encodeRune r).length) = (RuneError, 1)) :
    False := by
  injection h with h1 h2
  subst h1
  revert h2
  decide

/-- Cutting a string at or after the end of its first decoding step does not
change that step. -/
theorem decode_take (s : GoString) (m : Nat) (h : (DecodeRuneInString s).2 ≤ m) :
    DecodeRuneInString (s.take m) = DecodeRuneInString s := by
  by_cases hm : s.length ≤ m
  · rw [List.take_of_length_le hm]
  have hs : s ≠ [] := by
    intro h0; rw [h0] at hm; simp at hm
  rcases decode_inv s hs with hbad | ⟨r, t, hr, hst, hd⟩
  · rw [hbad] at h ⊢
    simp only [] at h
    have hne : s.take m ≠ [] := by
      intro h0
      have := congrArg List.length h0
      rw [List.length_take] at this
      simp only [List.length_nil] at this
      have : 0 < s.length := List.length_pos.mpr hs
      omega
    rcases decode_inv (s.take m) hne with hbad2 | ⟨r, t, hr, hst, hd⟩
    · exact hbad2
    · exfalso
      have : s = encodeRune r ++ (t ++ s.drop m) := by
        rw [← List.append_assoc, ← hst, List.take_append_drop]
      have hd2 := decode_encode r (t ++ s.drop m) hr
      rw [← this, hbad] at hd2
      exact decode_encode_ne_error r hd2.symm
  · rw [hd] at h ⊢
    simp only [] at h
    have : s.take m = encodeRune r ++ t.take (m - (encodeRune r).length) := by
      rw [hst, List.take_append_eq_append_take, List.take_of_length_le h]
    rw [this, decode_encode r _ hr]

/-- Appending a string that starts with a byte that can start a rune does not
change the first decoding step. -/
theorem decode_append (s t : GoString) (hs : s ≠ [])
    (ht : t = [] ∨ RuneStart (byteAt t 0) = true) :
    DecodeRuneInString (s ++ t) = DecodeRuneInString s := by
  rcases ht with rfl | ht
  · rw [List.append_nil]
  rcases decode_inv s hs with hbad | ⟨r, u, hr, hsu, hd⟩
  · rw [hbad]
    have hne : s ++ t ≠ [] := by
      intro h0; exact hs (List.append_eq_nil.mp h0).1
    rcases decode_inv (s ++ t) hne with hbad2 | ⟨r, u, hr, hsu, hd⟩
    · exact hbad2
    · exfalso
      by_cases hlen : (encodeRune r).length ≤ s.length
      · -- the encoding lies inside `s`
        have h1 : s = encodeRune r ++ (s.drop (encodeRune r).length) := by
          have := congrArg (List.take s.length) hsu
          rw [List.take_left, List.take_append_eq_append_take, List.take_of_length_le hlen] at this
          have h2 := congrArg (List.drop (encodeRune r).length) this
          rw [List.drop_left] at h2
          rw [h2]; exact this
        have hd2 := decode_encode r (s.drop (encodeRune r).length) hr
        rw [← h1, hbad] at hd2
        exact decode_encode_ne_error r hd2.symm
      · -- the encoding reaches into `t`: its byte number `len(s)` starts `t`
        have hpos : 0 < s.length := List.length_pos.mpr hs
        have hb : byteAt (s ++ t) (s.length + 0) = byteAt t 0 := byteAt_append_right s t 0
        have hb2 : byteAt (encodeRune r ++ u) s.length = byteAt (encodeRune r) s.length := by
          unfold byteAt
          rw [List.getD_append _ _ _ _ (by omega)]
        rw [Nat.add_zero, hsu, hb2] at hb
        rw [← hb, encodeRune_tail_not_start r hr s.length (by omega) (by omega)] at ht
        cases ht
  · rw [hd, hsu, List.append_assoc, decode_encode r _ hr]

theorem rangeLoop_nil (fuel i : Nat) : rangeLoop fuel i [] = [] := by
  cases fuel <;> simp [rangeLoop]

theorem rangeLoop_cons (fuel i : Nat) (s : GoString) (hs : s ≠ []) :
    rangeLoop (fuel + 1) i s =
      (i, (DecodeRuneInString s).1, (DecodeRuneInString s).2) ::
        rangeLoop fuel (i + (DecodeRuneInString s).2) (s.drop (DecodeRuneInString s).2) := by
  simp only [rangeLoop, hs, if_false]

theorem length_drop_decode (s : GoString) (hs : s ≠ []) :
    (s.drop (DecodeRuneInString s).2).length + 1 ≤ s.length := by
  have := decode_width s hs
  rw [List.length_drop]
  omega

/-- The decoding loop does not depend on its step budget once it is at least
the length of the string. -/
theorem rangeLoop_fuel (f : Nat) :
    ∀ (g i : Nat) (s : GoString), s.length ≤ f → s.length ≤ g →
      rangeLoop f i s = rangeLoop g i s := by
  induction f with
  | zero =>
    intro g i s hf _
    have : s = [] := List.length_eq_zero.mp (by omega)
    rw [this, rangeLoop_nil, rangeLoop_nil]
  | succ f ih =>
    intro g i s hf hg
    by_cases hs : s = []
    · rw [hs, rangeLoop_nil, rangeLoop_nil]
    have hd := length_drop_decode s hs
    obtain ⟨g', rfl⟩ : ∃ g', g = g' + 1 := ⟨g - 1, by omega⟩
    rw [rangeLoop_cons f i s hs, rangeLoop_cons g' i s hs, ih g' _ _ (by omega) (by omega)]

theorem runeBoundary_nil (j : Nat) : runeBoundary j [] = 0 := by
  cases j <;> simp [runeBoundary]

theorem runeBoundary_succ (j : Nat) (s : GoString) (hs : s ≠ []) :
    runeBoundary (j + 1) s =
      (DecodeRuneInString s).2 + runeBoundary j (s.drop (DecodeRuneInString s).2) := by
  simp only [runeBoundary, hs, if_false]

theorem runeBoundary_le (j : Nat) : ∀ s : GoString, runeBoundary j s ≤ s.length := by
  induction j with
  | zero => intro s; simp [runeBoundary]
  | succ j ih =>
    intro s
    by_cases hs : s = []
    · rw [hs, runeBoundary_nil]; simp
    rw [runeBoundary_succ j s hs]
    have := ih (s.drop (DecodeRuneInString s).2)
    have := decode_width s hs
    rw [List.length_drop] at *
    omega

theorem runeBoundary_add (a : Nat) :
    ∀ (b : Nat) (s : GoString),
      runeBoundary (a + b) s = runeBoundary a s + runeBoundary b (s.drop (runeBoundary a s)) := by
  induction a with
  | zero => intro b s; simp [runeBoundary]
  | succ a ih =>
    intro b s
    by_cases hs : s = []
    · rw [hs, runeBoundary_nil, runeBoundary_nil]; simp [runeBoundary_nil]
    rw [show a + 1 + b = (a + b) + 1 by omega, runeBoundary_succ _ s hs, runeBoundary_succ a s hs,
      ih, List.drop_drop]
    rw [Nat.add_assoc]

theorem runeBoundary_mono (a b : Nat) (s : GoString) (h : a ≤ b) :
    runeBoundary a s ≤ runeBoundary b s := by
  obtain ⟨c, rfl⟩ : ∃ c, b = a + c := ⟨b - a, by omega⟩
  rw [runeBoundary_add]
  omega

/-- Dropping `n` decoding steps is decoding from the boundary after `n` steps. -/
theorem rangeLoop_drop (n : Nat) :
    ∀ (f i : Nat) (s : GoString), s.length ≤ f →
      (rangeLoop f i s).drop n =
        rangeLoop f (i + runeBoundary n s) (s.drop (runeBoundary n s)) := by
  induction n with
  | zero => intro f i s _; simp [runeBoundary]
  | succ n ih =>
    intro f i s hf
    by_cases hs : s = []
    · rw [hs, runeBoundary_nil, rangeLoop_nil]; simp [rangeLoop_nil]
    have hd := length_drop_decode s hs
    obtain ⟨f', rfl⟩ : ∃ f', f = f' + 1 := ⟨f - 1, by omega⟩
    rw [rangeLoop_cons f' i s hs, List.drop_succ_cons, ih f' _ _ (by omega),
      runeBoundary_succ n s hs, List.drop_drop, Nat.add_assoc]
    have hle := runeBoundary_le n (s.drop (DecodeRuneInString s).2)
    apply rangeLoop_fuel
    · rw [List.length_drop] at *; omega
    · rw [List.length_drop] at *; omega

/-- Decoding the prefix that ends at the boundary after `n` steps gives the
first `n` steps. -/
theorem rangeLoop_take (n : Nat) :
    ∀ (f i : Nat) (s : GoString), s.length ≤ f →
      rangeLoop f i (s.take (runeBoundary n s)) = (rangeLoop f i s).take n := by
  induction n with
  | zero => intro f i s _; simp [runeBoundary, rangeLoop_nil]
  | succ n ih =>
    intro f i s hf
    by_cases hs : s = []
    · rw [hs, runeBoundary_nil, rangeLoop_nil]; simp [rangeLoop_nil]
    have hd := length_drop_decode s hs
    have hw := decode_width s hs
    obtain ⟨f', rfl⟩ : ∃ f', f = f' + 1 := ⟨f - 1, by omega⟩
    have hne : s.take (runeBoundary (n + 1) s) ≠ [] := by
      intro h0
      have := congrArg List.length h0
      rw [List.length_take, runeBoundary_succ n s hs] at this
      simp only [List.length_nil] at this
      omega
    rw [rangeLoop_cons f' i _ hne, rangeLoop_cons f' i s hs, List.take_succ_cons]
    have hdt : DecodeRuneInString (s.take (runeBoundary (n + 1) s)) = DecodeRuneInString s := by
      apply decode_take
      rw [runeBoundary_succ n s hs]; omega
    rw [hdt, List.drop_take, runeBoundary_succ n s hs, Nat.add_sub_cancel_left,
      ih f' _ _ (by omega)]

theorem rangeLoop_shift (f : Nat) :
    ∀ (i k : Nat) (s : GoString),
      rangeLoop f (i + k) s = (rangeLoop f i s).map (fun t => (t.1 + k, t.2)) := by
  induction f with
  | zero => intro i k s; simp [rangeLoop]
  | succ f ih =>
    intro i k s
    by_cases hs : s = []
    · rw [hs, rangeLoop_nil, rangeLoop_nil]; rfl
    rw [rangeLoop_cons f _ s hs, rangeLoop_cons f i s hs, List.map_cons,
      show i + k + (DecodeRuneInString s).2 = i + (DecodeRuneInString s).2 + k by omega, ih]

theorem rangeLoop_length (f g i j : Nat) (s : GoString) (hf : s.length ≤ f) (hg : s.length ≤ g) :
    (rangeLoop f i s).length = (rangeLoop g j s).length := by
  rw [rangeLoop_fuel f g i s hf hg]
  have h1 := rangeLoop_shift g 0 i s
  have h2 := rangeLoop_shift g 0 j s
  rw [Nat.zero_add] at h1 h2
  rw [h1, h2, List.length_map, List.length_map]

/-- After `n` decoding steps `n` fewer runes are left. -/
theorem runeCount_drop (n : Nat) (s : GoString) :
    RuneCountInString (s.drop (runeBoundary n s)) = RuneCountInString s - n := by
  have h := congrArg List.length (rangeLoop_drop n s.length 0 s (Nat.le_refl _))
  rw [List.length_drop] at h
  unfold RuneCountInString rangeSteps
  rw [h]
  apply rangeLoop_length
  · exact Nat.le_refl _
  · rw [List.length_drop]; omega

/-- The prefix that ends at the boundary after `n` steps holds `n` runes, or all
runes of the string. -/
theorem runeCount_take (n : Nat) (s : GoString) :
    RuneCountInString (s.take (runeBoundary n s)) = min n (RuneCountInString s) := by
  have h := congrArg List.length (rangeLoop_take n s.length 0 s (Nat.le_refl _))
  rw [List.length_take] at h
  unfold RuneCountInString rangeSteps
  rw [← h]
  apply rangeLoop_length
  · exact Nat.le_refl _
  · rw [List.length_take]; omega

theorem runeCount_nil : RuneCountInString [] = 0 := rfl

theorem runeCount_pos (s : GoString) (hs : s ≠ []) : 1 ≤ RuneCountInString s := by
  have hl : 0 < s.length := List.length_pos.mpr hs
  unfold RuneCountInString rangeSteps
  obtain ⟨f, hf⟩ : ∃ f, s.length = f + 1 := ⟨s.length - 1, by omega⟩
  rw [hf, rangeLoop_cons f 0 s hs]
  simp

theorem runeCount_le_length (s : GoString) : RuneCountInString s ≤ s.length := by
  have key : ∀ (f i : Nat) (t : GoString), t.length ≤ f → (rangeLoop f i t).length ≤ t.length := by
    intro f
    induction f with
    | zero => intro i t _; simp [rangeLoop]
    | succ f ih =>
      intro i t hf
      by_cases ht : t = []
      · rw [ht, rangeLoop_nil]; simp
      have hd := length_drop_decode t ht
      rw [rangeLoop_cons f i t ht, List.length_cons]
      have := ih (i + (DecodeRuneInString t).2) (t.drop (DecodeRuneInString t).2) (by omega)
      omega
  exact key _ _ _ (Nat.le_refl _)

/-- The slice between the boundaries after `a` and after `b` steps holds
`b - a` runes. -/
theorem runeCount_slice (s : GoString) (a b : Nat) (hab : a ≤ b) (hb : b ≤ RuneCountInString s) :
    RuneCountInString ((s.take (runeBoundary b s)).drop (runeBoundary a s)) = b - a := by
  obtain ⟨c, rfl⟩ : ∃ c, b = a + c := ⟨b - a, by omega⟩
  rw [List.drop_take, runeBoundary_add, Nat.add_sub_cancel_left, runeCount_take, runeCount_drop]
  omega

/-- Iteration number `n` of `for i := range s` has the boundary after `n` steps
as its index. -/
theorem rangeStr_drop (s : GoString) (n : Nat) (h : n < RuneCountInString s) :
    ∃ r, (rangeStr s).drop n = (runeBoundary n s, r) :: (rangeStr s).drop (n + 1) := by
  have hE := rangeLoop_drop n s.length 0 s (Nat.le_refl _)
  have hn : n < (rangeSteps s).length := h
  have hs : s.drop (runeBoundary n s) ≠ [] := by
    intro h0
    rw [h0, rangeLoop_nil] at hE
    have := congrArg List.length hE
    rw [List.length_drop] at this
    simp only [List.length_nil] at this
    unfold rangeSteps at hn
    omega
  have hl : 0 < s.length := by
    rcases Nat.eq_zero_or_pos s.length with h0 | h0
    · have : s = [] := List.length_eq_zero.mp h0
      rw [this] at hs; simp at hs
    · exact h0
  obtain ⟨f, hf⟩ : ∃ f, s.length = f + 1 := ⟨s.length - 1, by omega⟩
  have hE2 : (rangeSteps s).drop n = rangeLoop (f + 1) (0 + runeBoundary n s)
      (s.drop (runeBoundary n s)) := by
    unfold rangeSteps; rw [← hf]; exact hE
  rw [rangeLoop_cons f _ _ hs, Nat.zero_add] at hE2
  refine ⟨(DecodeRuneInString (s.drop (runeBoundary n s))).1, ?_⟩
  unfold rangeStr
  rw [← List.map_drop, hE2, List.map_cons, ← List.map_drop]
  congr 1
  have := congrArg (List.drop 1) hE2
  rw [List.drop_drop] at this
  rw [this]
  rfl

theorem rangeStr_length (s : GoString) : (rangeStr s).length = RuneCountInString s := by
  unfold rangeStr RuneCountInString
  rw [List.length_map]

/-! ## `ChunkString` -/

theorem slice_append_drop (s : GoString) (a b : Nat) (hab : a ≤ b) :
    (s.take b).drop a ++ s.drop b = s.drop a := by
  obtain ⟨c, rfl⟩ : ∃ c, b = a + c := ⟨b - a, by omega⟩
  rw [List.drop_take, Nat.add_sub_cancel_left, ← List.drop_drop, List.take_append_drop]

/-- The loop of `ChunkString` from iteration `n` on, with the current chunk
started at iteration `n0`. -/
theorem chunkLoop_spec (str : GoString) (size : Int) (hsize : 0 < size) :
    ∀ (k n n0 : Nat) (chunks : List GoString), n + k = RuneCountInString str → n0 ≤ n →
      ((n - n0 : Nat) : Int) ≤ size →
      ∃ more, chunkLoop str size ((rangeStr str).drop n) chunks ((n - n0 : Nat) : Int)
          ((runeBoundary n0 str : Nat) : Int) = Outcome.ok (chunks ++ more) ∧
        more.flatten = str.drop (runeBoundary n0 str) ∧
        (∀ c ∈ more.dropLast, (RuneCountInString c : Int) = size) ∧
        ∃ last, more.getLast? = some last ∧ (RuneCountInString last : Int) ≤ size ∧
          (n0 < RuneCountInString str → 1 ≤ RuneCountInString last) := by
  intro k
  induction k with
  | zero =>
    intro n n0 chunks hn hn0 hc
    have hnil : (rangeStr str).drop n = [] := by
      apply List.drop_of_length_le
      rw [rangeStr_length]; omega
    have hb := runeBoundary_le n0 str
    rw [hnil]
    refine ⟨[str.drop (runeBoundary n0 str)], ?_, by simp, by simp,
      str.drop (runeBoundary n0 str), rfl, ?_, ?_⟩
    · simp only [chunkLoop, sliceFrom]
      rw [if_pos ⟨by omega, by omega⟩, bind_ok, Int.toNat_ofNat]
    · rw [runeCount_drop]; omega
    · intro h; rw [runeCount_drop]; omega
  | succ k ih =>
    intro n n0 chunks hn hn0 hc
    obtain ⟨r, hr⟩ := rangeStr_drop str n (by omega)
    rw [hr]
    simp only [chunkLoop]
    by_cases hcut : ((n - n0 : Nat) : Int) = size
    · rw [if_pos hcut]
      have hb1 := runeBoundary_mono n0 n str hn0
      have hb2 := runeBoundary_le n str
      unfold slice
      rw [if_pos ⟨by omega, by omega, by omega⟩, bind_ok, Int.toNat_ofNat, Int.toNat_ofNat]
      have h1 : ((0 : Int) + 1) = ((n + 1 - n : Nat) : Int) := by
        rw [Nat.add_sub_cancel_left]; rfl
      rw [h1]
      obtain ⟨more, hm1, hm2, hm3, last, hl1, hl2, hl3⟩ :=
        ih (n + 1) n (chunks ++ [(str.take (runeBoundary n str)).drop (runeBoundary n0 str)])
          (by omega) (by omega) (by rw [Nat.add_sub_cancel_left]; push_cast; omega)
      have hne : more ≠ [] := by
        intro h0; rw [h0] at hl1; simp at hl1
      refine ⟨(str.take (runeBoundary n str)).drop (runeBoundary n0 str) :: more, ?_, ?_, ?_,
        last, ?_, hl2, fun _ => hl3 (by omega)⟩
      · rw [hm1, List.append_assoc]; rfl
      · rw [List.flatten_cons, hm2, slice_append_drop _ _ _ hb1]
      · intro c hc'
        rw [List.dropLast_cons_of_ne_nil hne] at hc'
        rcases List.mem_cons.mp hc' with rfl | hc'
        · rw [runeCount_slice str n0 n hn0 (by omega)]; exact hcut
        · exact hm3 c hc'
      · obtain ⟨b, l, rfl⟩ := List.exists_cons_of_ne_nil hne
        rw [List.getLast?_cons_cons]
        exact hl1
    · rw [if_neg hcut]
      have h1 : ((n - n0 : Nat) : Int) + 1 = ((n + 1 - n0 : Nat) : Int) := by
        omega
      rw [h1]
      exact ih (n + 1) n0 chunks (by omega) (by omega) (by omega)


/-- C13. `ChunkString` partitions its input: for every string and every
`size > 0` it returns chunks whose concatenation is the string; every chunk but
the last holds exactly `size` runes; the last chunk holds at most `size` runes
and at least one unless the string is empty, in which case the result is the
one-element list of the empty string. -/
theorem ChunkString_partitions (str : GoString) (size : Int) (hs : 0 < size) :
    ∃ chunks, ChunkString str size = Outcome.ok chunks ∧ chunks.flatten = str ∧
      (∀ c ∈ chunks.dropLast, (RuneCountInString c : Int) = size) ∧
      (∃ last, chunks.getLast? = some last ∧ (RuneCountInString last : Int) ≤ size ∧
        (str ≠ [] → 1 ≤ RuneCountInString last)) ∧
      (str = [] → chunks = [[]]) := by
  unfold ChunkString
  rw [if_neg (by omega)]
  by_cases h1 : size ≥ (str.length : Int)
  · rw [if_pos h1]
    refine ⟨[str], rfl, by simp, by simp, ⟨str, rfl, ?_, runeCount_pos str⟩, ?_⟩
    · have := runeCount_le_length str
      omega
    · intro h; rw [h]
  · rw [if_neg h1]
    have hne : str ≠ [] := by
      intro h0; rw [h0] at h1; simp at h1; omega
    have hpos := runeCount_pos str hne
    obtain ⟨more, hm1, hm2, hm3, last, hl1, hl2, hl3⟩ :=
      chunkLoop_spec str size hs (RuneCountInString str) 0 0 [] (by omega) (Nat.le_refl _)
        (by simp; omega)
    simp only [Nat.sub_self, List.drop_zero, runeBoundary, Nat.cast_zero, List.nil_append] at hm1 hm2
    exact ⟨more, hm1, hm2, hm3, ⟨last, hl1, hl2, fun _ => hl3 (by omega)⟩,
      fun h => absurd h hne⟩

theorem ChunkString_partitions_witness :
    ChunkString (utf8 "a😀b€c") 2 = Outcome.ok [utf8 "a😀", utf8 "b€", utf8 "c"] ∧
      (RuneCountInString (utf8 "a😀") : Int) = 2 ∧ (RuneCountInString (utf8 "b€") : Int) = 2 := by
  obtain ⟨chunks, h1, _, h3, _⟩ := ChunkString_partitions (utf8 "a😀b€c") 2 (by decide)
  have h : ChunkString (utf8 "a😀b€c") 2 = Outcome.ok [utf8 "a😀", utf8 "b€", utf8 "c"] := by
    decide
  rw [h] at h1
  injection h1 with h1
  subst h1
  exact ⟨h, h3 _ (by simp), h3 _ (by simp)⟩

/-! ## `strings.TrimSpace` -/

theorem scanStart_le (s : GoString) (lim : Int) :
    ∀ (fuel : Nat) (start : Int), scanStart s lim fuel start ≤ start := by
  intro fuel
  induction fuel with
  | zero => intro start; simp [scanStart]
  | succ fuel ih =>
    intro start
    simp only [scanStart]
    split_ifs
    · exact Int.le_refl _
    · have := ih (start - 1); omega
    · exact Int.le_refl _

/-- Reading backwards either reports an encoding error or reads the encoding of
a valid rune from the end of the string. -/
theorem decodeLast_inv (s : GoString) (hs : s ≠ []) :
    DecodeLastRuneInString s = (RuneError, 1) ∨
    ∃ q r, ValidRune r = true ∧ s = q ++ encodeRune r ∧
      DecodeLastRuneInString s = (r, (encodeRune r).length) := by
  rcases List.eq_nil_or_concat s with h0 | ⟨q, b, hqb⟩
  · exact absurd h0 hs
  rw [List.concat_eq_append] at hqb
  have hn : s.length = q.length + 1 := by rw [hqb]; simp
  have hlast : byteAt s (s.length - 1) = b.toNat := by
    have := byteAt_append_right q [b] 0
    rw [hn, Nat.add_sub_cancel, hqb]
    rw [Nat.add_zero] at this
    rw [this, byteAt_cons_zero]
  unfold DecodeLastRuneInString
  simp only []
  rw [if_neg (by omega), hlast]
  by_cases hb : b.toNat < 0x80
  · rw [if_pos hb]
    right
    refine ⟨q, b.toNat, by rw [validRune_iff]; omega, ?_, ?_⟩
    · rw [encode_one _ (by omega), byte_of_toNat]; exact hqb
    · rw [encode_one _ (by omega)]; rfl
  rw [if_neg hb]
  have hle := scanStart_le s (if ((s.length : Int) - 4) < 0 then 0 else (s.length : Int) - 4) 4
    ((s.length : Int) - 1 - 1)
  generalize scanStart s (if ((s.length : Int) - 4) < 0 then 0 else (s.length : Int) - 4) 4
    ((s.length : Int) - 1 - 1) = st at hle
  generalize hst : (if st < 0 then 0 else st) = st1
  have hst1 : 0 ≤ st1 ∧ st1 < (s.length : Int) := by
    rw [← hst]; split_ifs <;> omega
  by_cases hend : st1 + ((DecodeRuneInString (s.drop st1.toNat)).2 : Int) ≠ (s.length : Int)
  · rw [if_pos hend]; left; rfl
  rw [if_neg hend]
  have hne : s.drop st1.toNat ≠ [] := by
    intro h0
    have := congrArg List.length h0
    rw [List.length_drop] at this
    simp only [List.length_nil] at this
    omega
  rcases decode_inv _ hne with hbad | ⟨r, t, hr, hrt, hd⟩
  · left; exact hbad
  · right
    rw [hd] at hend ⊢
    simp only [] at hend
    have ht : t = [] := by
      have := congrArg List.length hrt
      rw [List.length_drop, List.length_append] at this
      apply List.length_eq_zero.mp
      omega
    rw [ht, List.append_nil] at hrt
    refine ⟨s.take st1.toNat, r, hr, ?_, rfl⟩
    rw [← hrt, List.take_append_drop]

theorem byteAt_drop (s : GoString) (k j : Nat) (hk : k ≤ s.length) :
    byteAt (s.drop k) j = byteAt s (k + j) := by
  have h := byteAt_append_right (s.take k) (s.drop k) j
  rw [List.take_append_drop, List.length_take, Nat.min_eq_left hk] at h
  exact h.symm

theorem decodeLast_error_last (s : GoString) (hs : s ≠ [])
    (h : DecodeLastRuneInString s = (RuneError, 1)) : 0x80 ≤ byteAt s (s.length - 1) := by
  have hl : s.length ≠ 0 := fun h0 => hs (List.length_eq_zero.mp h0)
  by_contra hlt
  unfold DecodeLastRuneInString at h
  simp only [] at h
  rw [if_neg hl, if_pos (by omega)] at h
  injection h with h1 h2
  unfold RuneError at h1
  omega

theorem encodeRune_ascii_head (r : Nat) (hv : ValidRune r = true)
    (h : byteAt (encodeRune r) 0 < 0x80) : (encodeRune r).length = 1 := by
  rw [validRune_iff] at hv
  by_cases h1 : r ≤ 0x7F
  · rw [encode_one r h1]; rfl
  exfalso
  by_cases h2 : r ≤ 0x7FF
  · rw [encode_two r (by omega) h2, byteAt_cons_zero, byte_toNat] at h; omega
  by_cases h3 : r ≤ 0xFFFF
  · rw [encode_three r (by omega) (by omega), byteAt_cons_zero, byte_toNat] at h; omega
  · rw [encode_four r (by omega) (by omega), byteAt_cons_zero, byte_toNat] at h; omega

theorem isSpace_runeError : isSpace RuneError = false := by decide

/-- The backward loop of `TrimRightFunc` and the adjustment that follows it end
at a position `e` such that what is cut off is empty or starts with a byte that
can start a rune. -/
theorem trimRight_loop (s : GoString) :
    ∀ (fuel i : Nat), i ≤ s.length → i < fuel →
      (s.drop i = [] ∨ RuneStart (byteAt (s.drop i) 0) = true) →
      ∃ e, e ≤ s.length ∧ (s.drop e = [] ∨ RuneStart (byteAt (s.drop e) 0) = true) ∧
        (if 0 ≤ lastIndexNotSpace s fuel i ∧
            0x80 ≤ byteAt s (lastIndexNotSpace s fuel i).toNat then
          (lastIndexNotSpace s fuel i).toNat +
            (DecodeRuneInString (s.drop (lastIndexNotSpace s fuel i).toNat)).2
        else (lastIndexNotSpace s fuel i + 1).toNat) = e := by
  intro fuel
  induction fuel with
  | zero => intro i _ h; omega
  | succ fuel ih =>
    intro i hi hf htail
    by_cases hpos : 0 < i
    · have hne : s.take i ≠ [] := by
        intro h0
        have := congrArg List.length h0
        rw [List.length_take] at this
        simp only [List.length_nil] at this
        omega
      have hlen : (s.take i).length = i := by rw [List.length_take]; omega
      simp only [lastIndexNotSpace, hpos, if_true]
      rcases decodeLast_inv _ hne with hbad | ⟨q, r, hr, hqr, hd⟩
      · -- an encoding error: one byte, not white space
        have hlast := decodeLast_error_last _ hne hbad
        rw [hlen] at hlast
        have hb : byteAt s (i - 1) = byteAt (s.take i) (i - 1) := by
          have h1 := byteAt_drop s (i - 1) 0 (by omega)
          have h2 := byteAt_drop (s.take i) (i - 1) 0 (by omega)
          rw [Nat.add_zero] at h1 h2
          rw [← h1, ← h2, List.drop_take]
          have : s.drop (i - 1) ≠ [] := by
            intro h0
            have := congrArg List.length h0
            rw [List.length_drop] at this
            simp only [List.length_nil] at this
            omega
          obtain ⟨b, t, hbt⟩ := List.exists_cons_of_ne_nil this
          rw [hbt, show i - (i - 1) = 1 by omega]
          rfl
        rw [hbad]
        simp only [isSpace_runeError, if_true]
        refine ⟨i, hi, htail, ?_⟩
        rw [Int.toNat_ofNat, if_pos ⟨by omega, by omega⟩]
        have hsplit : ∃ b, s.drop (i - 1) = [b] ++ s.drop i := by
          have : s.drop (i - 1) ≠ [] := by
            intro h0
            have := congrArg List.length h0
            rw [List.length_drop] at this
            simp only [List.length_nil] at this
            omega
          obtain ⟨b, t, hbt⟩ := List.exists_cons_of_ne_nil this
          have ht : t = s.drop i := by
            have := congrArg (List.drop 1) hbt
            rw [List.drop_drop, show i - 1 + 1 = i by omega] at this
            exact this.symm
          exact ⟨b, by rw [hbt, ht]; rfl⟩
        obtain ⟨b, hsplit⟩ := hsplit
        rw [hsplit, decode_append _ _ (by simp) htail]
        have hw := decode_width [b] (by simp)
        simp only [List.length_singleton] at hw
        omega
      · rw [hd]
        simp only []
        have hq : q.length + (encodeRune r).length = i := by
          have := congrArg List.length hqr
          rw [List.length_append, hlen] at this
          omega
        have hel := encodeRune_length r
        have hdrop : s.drop q.length = encodeRune r ++ s.drop i := by
          have h1 : s = q ++ encodeRune r ++ s.drop i := by
            rw [← hqr, List.take_append_drop]
          conv_lhs => rw [h1, List.append_assoc, List.drop_left]
        have hi2 : i - (encodeRune r).length = q.length := by omega
        have hhead : byteAt (s.drop q.length) 0 = byteAt (encodeRune r) 0 := by
          rw [hdrop]
          unfold byteAt
          rw [List.getD_append _ _ _ _ (by omega)]
        by_cases hsp : isSpace r = false
        · rw [if_pos hsp, hi2]
          refine ⟨i, hi, htail, ?_⟩
          rw [Int.toNat_ofNat]
          have hb := byteAt_drop s q.length 0 (by omega)
          rw [Nat.add_zero, hhead] at hb
          by_cases h80 : 0x80 ≤ byteAt s q.length
          · rw [if_pos ⟨by omega, h80⟩, hdrop, decode_encode r _ hr]
            exact hq
          · rw [if_neg (by intro h; exact h80 h.2)]
            have := encodeRune_ascii_head r hr (by omega)
            omega
        · rw [if_neg hsp, hi2]
          apply ih q.length (by omega) (by omega)
          right
          rw [hhead]
          exact encodeRune_head_start r hr
    · have h0 : i = 0 := by omega
      subst h0
      simp only [lastIndexNotSpace, hpos, if_false]
      refine ⟨0, by omega, htail, ?_⟩
      rw [if_neg (by omega)]
      rfl

theorem trimRight_split (s : GoString) :
    ∃ t, s = TrimRightSpace s ++ t ∧ (t = [] ∨ RuneStart (byteAt t 0) = true) := by
  obtain ⟨e, _, he2, he3⟩ := trimRight_loop s (s.length + 1) s.length (Nat.le_refl _)
    (by omega) (Or.inl (List.drop_length s))
  refine ⟨s.drop e, ?_, he2⟩
  have : TrimRightSpace s = s.take e := by
    unfold TrimRightSpace
    simp only []
    by_cases hc : 0 ≤ lastIndexNotSpace s (s.length + 1) s.length ∧
        0x80 ≤ byteAt s (lastIndexNotSpace s (s.length + 1) s.length).toNat
    · rw [if_pos hc] at he3 ⊢
      rw [he3]
    · rw [if_neg hc] at he3 ⊢
      rw [he3]
  rw [this, List.take_append_drop]

theorem trimLeft_loop (f : Nat) :
    ∀ (i : Nat) (s : GoString), s.length ≤ f →
      indexNotSpace ((rangeLoop f i s).map (fun t => (t.1, t.2.1))) = -1 ∨
      ∃ p, p ≤ s.length ∧
        indexNotSpace ((rangeLoop f i s).map (fun t => (t.1, t.2.1))) = ((i + p : Nat) : Int) ∧
        s.drop p ≠ [] ∧ isSpace (DecodeRuneInString (s.drop p)).1 = false := by
  induction f with
  | zero => intro i s _; left; simp [rangeLoop, indexNotSpace]
  | succ f ih =>
    intro i s hf
    by_cases hs : s = []
    · left; rw [hs, rangeLoop_nil]; rfl
    have hd := length_drop_decode s hs
    have hw := decode_width s hs
    rw [rangeLoop_cons f i s hs, List.map_cons]
    simp only [indexNotSpace]
    by_cases hsp : isSpace (DecodeRuneInString s).1 = false
    · right
      rw [if_pos hsp]
      exact ⟨0, by omega, rfl, by simpa using hs, by simpa using hsp⟩
    · rw [if_neg hsp]
      rcases ih (i + (DecodeRuneInString s).2) (s.drop (DecodeRuneInString s).2) (by omega) with
        h | ⟨p, hp, hidx, hne, hns⟩
      · left; exact h
      · right
        rw [List.length_drop] at hp
        rw [List.drop_drop] at hne hns
        refine ⟨(DecodeRuneInString s).2 + p, by omega, ?_, ?_, ?_⟩
        · rw [hidx, Nat.add_assoc]
        · exact hne
        · exact hns

/-- What `TrimLeftFunc` returns is empty or starts with a rune that is not white
space. -/
theorem trimLeft_head (s : GoString) :
    TrimLeftSpace s = [] ∨ isSpace (DecodeRuneInString (TrimLeftSpace s)).1 = false := by
  unfold TrimLeftSpace rangeStr rangeSteps
  simp only []
  rcases trimLeft_loop s.length 0 s (Nat.le_refl _) with h | ⟨p, _, hidx, _, hns⟩
  · left; rw [if_pos h]
  · right
    rw [hidx, if_neg (by omega), Int.toNat_ofNat, Nat.zero_add]
    exact hns

/-- A string that is empty or starts with a rune that is not white space is left
unchanged by `TrimLeftFunc`. -/
theorem trimLeft_id (s : GoString)
    (h : s = [] ∨ isSpace (DecodeRuneInString s).1 = false) : TrimLeftSpace s = s := by
  rcases h with rfl | h
  · rfl
  by_cases hs : s = []
  · rw [hs]; rfl
  have hl : 0 < s.length := List.length_pos.mpr hs
  obtain ⟨f, hf⟩ : ∃ f, s.length = f + 1 := ⟨s.length - 1, by omega⟩
  unfold TrimLeftSpace rangeStr rangeSteps
  simp only []
  rw [hf, rangeLoop_cons f 0 s hs, List.map_cons]
  simp only [indexNotSpace, h, if_true]
  rw [if_neg (by omega)]
  rfl

/-- What `TrimSpace` returns is empty or starts with a rune that is not white
space. -/
theorem trimSpace_head (s : GoString) :
    TrimSpace s = [] ∨ isSpace (DecodeRuneInString (TrimSpace s)).1 = false := by
  by_cases hq : TrimSpace s = []
  · exact Or.inl hq
  right
  obtain ⟨t, ht1, ht2⟩ := trimRight_split (TrimLeftSpace s)
  have hd := decode_append (TrimRightSpace (TrimLeftSpace s)) t hq ht2
  rw [← ht1] at hd
  have hq2 : TrimRightSpace (TrimLeftSpace s) ≠ [] := hq
  rcases trimLeft_head s with h | h
  · exfalso
    rw [h] at ht1 hq2
    exact hq2 (List.append_eq_nil.mp ht1.symm).1
  · unfold TrimSpace
    rw [← hd]
    exact h

/-- On a string that is empty or starts with a rune that is not white space,
`TrimSpace` cuts off a tail that is empty or starts with a byte that can start a
rune. -/
theorem trimSpace_split (s : GoString)
    (h : s = [] ∨ isSpace (DecodeRuneInString s).1 = false) :
    ∃ t, s = TrimSpace s ++ t ∧ (t = [] ∨ RuneStart (byteAt t 0) = true) := by
  unfold TrimSpace
  rw [trimLeft_id s h]
  exact trimRight_split s

theorem runeBoundary_count (s : GoString) : runeBoundary (RuneCountInString s) s = s.length := by
  have h := runeCount_drop (RuneCountInString s) s
  rw [Nat.sub_self] at h
  have hle := runeBoundary_le (RuneCountInString s) s
  by_cases hd : s.drop (runeBoundary (RuneCountInString s) s) = []
  · have := congrArg List.length hd
    rw [List.length_drop] at this
    simp only [List.length_nil] at this
    omega
  · have := runeCount_pos _ hd
    omega

theorem runeBoundary_one (s : GoString) (hs : s ≠ []) :
    runeBoundary 1 s = (DecodeRuneInString s).2 := by
  rw [runeBoundary_succ 0 s hs]
  rfl

/-- Appending a tail that starts with a byte that can start a rune keeps the
boundaries of the decoding steps. -/
theorem runeBoundary_append (t : GoString) (ht : t = [] ∨ RuneStart (byteAt t 0) = true) (j : Nat) :
    ∀ q : GoString, j ≤ RuneCountInString q → runeBoundary j (q ++ t) = runeBoundary j q := by
  induction j with
  | zero => intro q _; rfl
  | succ j ih =>
    intro q hj
    have hq : q ≠ [] := by
      intro h0; rw [h0, runeCount_nil] at hj; omega
    have hqt : q ++ t ≠ [] := by
      intro h0; exact hq (List.append_eq_nil.mp h0).1
    have hw := decode_width q hq
    rw [runeBoundary_succ j _ hqt, runeBoundary_succ j q hq, decode_append q t hq ht,
      List.drop_append_of_le_length hw.2]
    rw [ih]
    have := runeCount_drop 1 q
    rw [runeBoundary_one q hq] at this
    omega

theorem runeCount_append (q t : GoString) (ht : t = [] ∨ RuneStart (byteAt t 0) = true) :
    RuneCountInString (q ++ t) = RuneCountInString q + RuneCountInString t := by
  have hb : runeBoundary (RuneCountInString q) (q ++ t) = q.length := by
    rw [runeBoundary_append t ht _ q (Nat.le_refl _), runeBoundary_count]
  have h1 := runeCount_drop (RuneCountInString q) (q ++ t)
  have h2 := runeCount_take (RuneCountInString q) (q ++ t)
  rw [hb, List.drop_left] at h1
  rw [hb, List.take_left] at h2
  have : RuneCountInString q ≤ RuneCountInString (q ++ t) := by
    rw [h2]; omega
  omega

/-! ## `Ellipsis` -/

theorem runeBoundary_take (j : Nat) :
    ∀ (n : Nat) (s : GoString), j ≤ n →
      runeBoundary j (s.take (runeBoundary n s)) = runeBoundary j s := by
  induction j with
  | zero => intro n s _; rfl
  | succ j ih =>
    intro n s hjn
    by_cases hs : s = []
    · rw [hs, runeBoundary_nil]; rfl
    obtain ⟨m, rfl⟩ : ∃ m, n = m + 1 := ⟨n - 1, by omega⟩
    have hw := decode_width s hs
    have hne : s.take (runeBoundary (m + 1) s) ≠ [] := by
      intro h0
      have := congrArg List.length h0
      rw [List.length_take, runeBoundary_succ m s hs] at this
      simp only [List.length_nil] at this
      omega
    have hdt : DecodeRuneInString (s.take (runeBoundary (m + 1) s)) = DecodeRuneInString s := by
      apply decode_take
      rw [runeBoundary_succ m s hs]; omega
    rw [runeBoundary_succ j _ hne, hdt, runeBoundary_succ j s hs, List.drop_take,
      runeBoundary_succ m s hs, Nat.add_sub_cancel_left, ih m _ (by omega)]

/-- The loop of `Ellipsis` from iteration `n` on: the string is returned when
it has at most `length` runes, and is cut before rune `length - 3` (at 0 when
`length < 3`) otherwise. -/
theorem ellipsisLoop_spec (t : GoString) (L : Int) (h0 : 0 ≤ L) (h1 : L < 2 ^ 63) :
    ∀ (k n : Nat) (cut : Int), n + k = RuneCountInString t → (n : Int) ≤ L →
      cut = (if 3 ≤ L ∧ L - 3 < (n : Int) then ((runeBoundary (L - 3).toNat t : Nat) : Int) else 0) →
      ellipsisLoop t ((rangeStr t).drop n) (L - (n : Int)) cut =
        if (RuneCountInString t : Int) ≤ L then Outcome.ok t
        else Outcome.ok (TrimSpace (t.take
          (if 3 ≤ L then runeBoundary (L - 3).toNat t else 0)) ++ ellipsis) := by
  intro k
  induction k with
  | zero =>
    intro n cut hn hL _
    have hnil : (rangeStr t).drop n = [] := by
      apply List.drop_of_length_le
      rw [rangeStr_length]; omega
    rw [hnil, if_pos (by omega)]
    rfl
  | succ k ih =>
    intro n cut hn hL hcut
    obtain ⟨r, hr⟩ := rangeStr_drop t n (by omega)
    rw [hr]
    simp only [ellipsisLoop]
    have hlen : (ellipsis.length : Int) = 3 := rfl
    rw [hlen, wrapInt_of_range (L - (n : Int) - 1) (by omega) (by omega)]
    by_cases hneg : L - (n : Int) - 1 < 0
    · have hnL : (n : Int) = L := by omega
      rw [if_pos hneg, if_neg (by omega), if_neg (by omega), hcut]
      by_cases h3 : 3 ≤ L
      · rw [if_pos ⟨h3, by omega⟩, if_pos h3]
        unfold sliceTo
        have := runeBoundary_le (L - 3).toNat t
        rw [if_pos ⟨by omega, by omega⟩, bind_ok, Int.toNat_ofNat]
      · rw [if_neg (by intro h; exact h3 h.1), if_neg h3]
        unfold sliceTo
        rw [if_pos ⟨by omega, by omega⟩, bind_ok]
        rfl
    · rw [if_neg hneg]
      have e1 : L - (n : Int) - 1 = L - ((n + 1 : Nat) : Int) := by push_cast; omega
      rw [e1]
      apply ih (n + 1) _ (by omega) (by push_cast; omega)
      rw [hcut]
      by_cases h3 : L - (n : Int) = 3
      · rw [if_pos h3, if_pos ⟨by omega, by push_cast; omega⟩]
        have : (L - 3).toNat = n := by omega
        rw [this]
      · rw [if_neg h3]
        by_cases hc : 3 ≤ L ∧ L - 3 < (n : Int)
        · rw [if_pos hc, if_pos ⟨hc.1, by push_cast; omega⟩]
        · rw [if_neg hc, if_neg (by push_cast; omega)]

theorem runeCount_ellipsis : RuneCountInString ellipsis = 3 := by decide

theorem ellipsis_head : ellipsis = [] ∨ RuneStart (byteAt ellipsis 0) = true :=
  Or.inr (by decide)

theorem trimSpace_nil : TrimSpace [] = [] := by decide

/-- C14 (as stated, fails). For `"12345"` (5 runes) and length 2 `Ellipsis`
returns `"..."`, which holds 3 runes, more than the length asked for. -/
theorem Ellipsis_exceeds_short_length :
    TrimSpace (utf8 "12345") = utf8 "12345" ∧
    ¬ ((RuneCountInString (utf8 "12345") : Int) ≤ 2) ∧
    Ellipsis (utf8 "12345") 2 = Outcome.ok (utf8 "...") ∧
    ¬ ((RuneCountInString (utf8 "...") : Int) ≤ 2) := by
  decide

/-- C14 (amended). With `t` the string trimmed of surrounding white space and
`0 <= length`, `Ellipsis` returns `t` when `t` holds at most `length` runes;
otherwise it returns `p ++ "..."` where `p` is a prefix of `t` that ends at a
boundary between runes of `t`; for `length >= 3` the result holds at most
`length` runes, and for `length < 3` it is `"..."` alone. -/
theorem Ellipsis_truncates (str : GoString) (length : Int) (h0 : 0 ≤ length)
    (h1 : length < 2 ^ 63) :
    ((RuneCountInString (TrimSpace str) : Int) ≤ length →
      Ellipsis str length = Outcome.ok (TrimSpace str)) ∧
    (length < (RuneCountInString (TrimSpace str) : Int) →
      ∃ p j, Ellipsis str length = Outcome.ok (p ++ ellipsis) ∧
        p = (TrimSpace str).take (runeBoundary j (TrimSpace str)) ∧
        (3 ≤ length → (RuneCountInString (p ++ ellipsis) : Int) ≤ length) ∧
        (length < 3 → p = [])) := by
  have hzero : ¬ (3 ≤ length ∧ length - 3 < ((0 : Nat) : Int)) := by
    rintro ⟨a, b⟩
    rw [Nat.cast_zero] at b
    omega
  have hloop := ellipsisLoop_spec (TrimSpace str) length h0 h1 (RuneCountInString (TrimSpace str))
    0 0 (by omega) (by simpa using h0) (by rw [if_neg hzero])
  simp only [List.drop_zero, Nat.cast_zero, Int.sub_zero] at hloop
  constructor
  · intro h
    unfold Ellipsis
    rw [hloop, if_pos h]
  · intro h
    generalize ht : TrimSpace str = t at hloop h
    have hE : Ellipsis str length = Outcome.ok (TrimSpace (t.take
        (if 3 ≤ length then runeBoundary (length - 3).toNat t else 0)) ++ ellipsis) := by
      unfold Ellipsis
      rw [ht, hloop, if_neg (by omega)]
    by_cases h3 : 3 ≤ length
    · rw [if_pos h3] at hE
      have htne : t ≠ [] := by
        intro h0'; rw [h0', runeCount_nil] at h; simp at h; omega
      -- the cut prefix is empty or starts with a rune that is not white space
      have hpre : t.take (runeBoundary (length - 3).toNat t) = [] ∨
          isSpace (DecodeRuneInString (t.take (runeBoundary (length - 3).toNat t))).1 = false := by
        by_cases hm : (length - 3).toNat = 0
        · left; rw [hm]; rfl
        · right
          have hmono := runeBoundary_mono 1 (length - 3).toNat t (by omega)
          rw [runeBoundary_one t htne] at hmono
          rw [decode_take t _ hmono]
          rcases trimSpace_head str with hh | hh
          · rw [ht] at hh; exact absurd hh htne
          · rw [ht] at hh; exact hh
      obtain ⟨tl, hsplit, htl⟩ := trimSpace_split _ hpre
      generalize hp : TrimSpace (t.take (runeBoundary (length - 3).toNat t)) = p at hE hsplit
      have hcnt := runeCount_append p tl htl
      rw [← hsplit, runeCount_take] at hcnt
      have hjm : RuneCountInString p ≤ (length - 3).toNat := by omega
      refine ⟨p, RuneCountInString p, hE, ?_, ?_, fun hlt => by omega⟩
      · have hb : runeBoundary (RuneCountInString p) (p ++ tl) = p.length := by
          rw [runeBoundary_append tl htl _ p (Nat.le_refl _), runeBoundary_count]
        rw [← hsplit, runeBoundary_take _ _ t hjm] at hb
        have hp2 : p = (t.take (runeBoundary (length - 3).toNat t)).take p.length := by
          conv_rhs => rw [hsplit, List.take_left]
        have hmono := runeBoundary_mono _ _ t hjm
        have hp3 : (t.take (runeBoundary (length - 3).toNat t)).take p.length =
            t.take p.length := by
          rw [List.take_take, Nat.min_eq_left (by omega)]
        rw [hb]
        exact hp2.trans hp3
      · intro _
        rw [runeCount_append p ellipsis ellipsis_head, runeCount_ellipsis]
        omega
    · rw [if_neg h3, List.take_zero, trimSpace_nil] at hE
      exact ⟨[], 0, hE, rfl, fun h => absurd h h3, fun _ => rfl⟩

theorem Ellipsis_truncates_witness :
    Ellipsis (utf8 " 😀😀😀😀😀 ") 10 = Outcome.ok (utf8 "😀😀😀😀😀") ∧
      Ellipsis (utf8 "a   c d e f") 6 = Outcome.ok (utf8 "a" ++ ellipsis) ∧
      (RuneCountInString (utf8 "a" ++ ellipsis) : Int) ≤ 6 := by
  have h := Ellipsis_truncates (utf8 " 😀😀😀😀😀 ") 10 (by decide) (by decide)
  have h2 := Ellipsis_truncates (utf8 "a   c d e f") 6 (by decide) (by decide)
  have he : Ellipsis (utf8 "a   c d e f") 6 = Outcome.ok (utf8 "a" ++ ellipsis) := by decide
  refine ⟨?_, he, ?_⟩
  · rw [h.1 (by decide)]
    decide
  · obtain ⟨p, j, hp, _, hcount, _⟩ := h2.2 (by decide)
    rw [he] at hp
    injection hp with hp
    have hpa : utf8 "a" = p := List.append_cancel_right hp
    rw [hpa]
    exact hcount (by decide)

/-! ## `nearestPowerOfTwo` on inputs up to `2^32` -/

theorem smear_step (m a w : Nat)
    (h : ∀ i, a.testBit i = true ↔ ∃ d, d < w ∧ m.testBit (i + d) = true) :
    ∀ i, (a ||| a >>> w).testBit i = true ↔ ∃ d, d < 2 * w ∧ m.testBit (i + d) = true := by
  intro i
  rw [Nat.testBit_or, Nat.testBit_shiftRight, Bool.or_eq_true, h, h]
  constructor
  · rintro (⟨d, hd, hb⟩ | ⟨d, hd, hb⟩)
    · exact ⟨d, by omega, hb⟩
    · exact ⟨w + d, by omega, by rw [← Nat.add_assoc, Nat.add_comm i w]; exact hb⟩
  · rintro ⟨d, hd, hb⟩
    by_cases hdw : d < w
    · exact Or.inl ⟨d, hdw, hb⟩
    · refine Or.inr ⟨d - w, by omega, ?_⟩
      rw [show w + i + (d - w) = i + d by omega]
      exact hb

/-- The five smearing steps set every bit up to 31 places below a set bit. -/
theorem smear_testBit (m : Nat) (i : Nat) :
    (((((m ||| m >>> 1) ||| (m ||| m >>> 1) >>> 2) |||
      ((m ||| m >>> 1) ||| (m ||| m >>> 1) >>> 2) >>> 4) |||
      (((m ||| m >>> 1) ||| (m ||| m >>> 1) >>> 2) |||
      ((m ||| m >>> 1) ||| (m ||| m >>> 1) >>> 2) >>> 4) >>> 8) |||
      ((((m ||| m >>> 1) ||| (m ||| m >>> 1) >>> 2) |||
      ((m ||| m >>> 1) ||| (m ||| m >>> 1) >>> 2) >>> 4) |||
      (((m ||| m >>> 1) ||| (m ||| m >>> 1) >>> 2) |||
      ((m ||| m >>> 1) ||| (m ||| m >>> 1) >>> 2) >>> 4) >>> 8) >>> 16).testBit i = true ↔
      ∃ d, d < 32 ∧ m.testBit (i + d) = true := by
  have h0 : ∀ i, m.testBit i = true ↔ ∃ d, d < 1 ∧ m.testBit (i + d) = true := by
    intro i
    constructor
    · intro h; exact ⟨0, by omega, h⟩
    · rintro ⟨d, hd, hb⟩
      obtain rfl : d = 0 := by omega
      exact hb
  have h1 := smear_step m m 1 h0
  have h2 := smear_step m _ 2 h1
  have h3 := smear_step m _ 4 h2
  have h4 := smear_step m _ 8 h3
  have h5 := smear_step m _ 16 h4
  exact h5 i

/-- Below `2^32` the smear fills every bit below the leading one. -/
theorem smear_eq (m : Nat) (hm : m < 2 ^ 32) (h0 : m ≠ 0) :
    ∃ t, t < 32 ∧ 2 ^ t ≤ m ∧ m < 2 ^ (t + 1) ∧
    (((((m ||| m >>> 1) ||| (m ||| m >>> 1) >>> 2) |||
      ((m ||| m >>> 1) ||| (m ||| m >>> 1) >>> 2) >>> 4) |||
      (((m ||| m >>> 1) ||| (m ||| m >>> 1) >>> 2) |||
      ((m ||| m >>> 1) ||| (m ||| m >>> 1) >>> 2) >>> 4) >>> 8) |||
      ((((m ||| m >>> 1) ||| (m ||| m >>> 1) >>> 2) |||
      ((m ||| m >>> 1) ||| (m ||| m >>> 1) >>> 2) >>> 4) |||
      (((m ||| m >>> 1) ||| (m ||| m >>> 1) >>> 2) |||
      ((m ||| m >>> 1) ||| (m ||| m >>> 1) >>> 2) >>> 4) >>> 8) >>> 16) = 2 ^ (t + 1) - 1 := by
  obtain ⟨t, ht1, ht2⟩ := Nat.exists_most_significant_bit h0
  have hge : 2 ^ t ≤ m := Nat.testBit_implies_ge ht1
  have ht : t < 32 := by
    by_contra hcon
    have : 2 ^ 32 ≤ 2 ^ t := Nat.pow_le_pow_right (by omega) (by omega)
    omega
  have hlt : m < 2 ^ (t + 1) := by
    apply Nat.lt_pow_two_of_testBit
    intro i hi
    exact ht2 i (by omega)
  refine ⟨t, ht, hge, hlt, ?_⟩
  apply Nat.eq_of_testBit_eq
  intro i
  rw [Nat.testBit_two_pow_sub_one]
  by_cases hi : i < t + 1
  · rw [decide_eq_true hi, smear_testBit]
    exact ⟨t - i, by omega, by rw [show i + (t - i) = t by omega]; exact ht1⟩
  · rw [decide_eq_false hi]
    rw [← Bool.not_eq_true, smear_testBit]
    rintro ⟨d, _, hb⟩
    rw [ht2 (i + d) (by omega)] at hb
    cases hb

/-- For `1 <= n <= 2^32`, `nearestPowerOfTwo(n)` is the smallest power of two
that is at least `n`. -/
theorem nearestPowerOfTwo_small (n : Nat) (h1 : 1 ≤ n) (h2 : n ≤ 2 ^ 32) :
    ∃ k : Nat, k ≤ 32 ∧ nearestPowerOfTwo (n : Int) = ((2 ^ k : Nat) : Int) ∧ n ≤ 2 ^ k ∧
      2 ^ k < 2 * n := by
  obtain ⟨m, rfl⟩ : ∃ m, n = m + 1 := ⟨n - 1, by omega⟩
  have hw : wrapInt (((m + 1 : Nat) : Int) - 1) = (m : Int) := by
    rw [wrapInt_of_range] <;> push_cast <;> omega
  unfold nearestPowerOfTwo
  simp only [hw, lor_shift_cast, maximumCapacity_eq]
  by_cases h0 : m = 0
  · subst h0
    exact ⟨0, by omega, by decide, by omega, by omega⟩
  obtain ⟨t, ht, hge, hlt, hsm⟩ := smear_eq m (by omega) h0
  rw [hsm]
  have hpos : 1 ≤ 2 ^ (t + 1) := Nat.one_le_two_pow
  have hle : 2 ^ (t + 1) ≤ 2 ^ 32 := Nat.pow_le_pow_right (by omega) (by omega)
  have hpow : 2 ^ (t + 1) = 2 * 2 ^ t := by rw [pow_succ]; omega
  refine ⟨t + 1, by omega, ?_, by omega, by omega⟩
  rw [if_neg (by omega), if_neg (by omega)]
  omega

theorem ilog2_two_pow (fuel : Nat) : ∀ k : Nat, k ≤ fuel → ilog2 fuel (2 ^ k) = k := by
  induction fuel with
  | zero => intro k hk; obtain rfl : k = 0 := by omega
            rfl
  | succ fuel ih =>
    intro k hk
    cases k with
    | zero => simp [ilog2]
    | succ k =>
      have hpos : 1 ≤ 2 ^ k := Nat.one_le_two_pow
      have hpow : 2 ^ (k + 1) = 2 * 2 ^ k := by rw [pow_succ]; omega
      simp only [ilog2]
      rw [if_pos (by omega), hpow, Nat.mul_div_cancel_left _ (by omega), ih k (by omega)]

/-- For a charset of 2 to `2^32` elements every index is reachable and fewer
than half of the chunk values are rejected. -/
theorem letterIDBits_small (len : Nat) (h1 : 2 ≤ len) (h2 : len ≤ 2 ^ 32) :
    len ≤ 2 ^ log2Int (nearestPowerOfTwo (len : Int)) ∧
      2 ^ log2Int (nearestPowerOfTwo (len : Int)) < 2 * len := by
  obtain ⟨k, hk, hn, hle, hlt⟩ := nearestPowerOfTwo_small len (by omega) h2
  rw [hn]
  unfold log2Int
  rw [Int.toNat_ofNat, ilog2_two_pow 64 k (by omega)]
  exact ⟨hle, hlt⟩

theorem lor_neg (x y : Int) (hx : x < 0) : Int.lor x y < 0 := by
  cases x with
  | ofNat a => exact absurd hx (by simp)
  | negSucc a =>
    cases y with
    | ofNat b => exact Int.negSucc_lt_zero _
    | negSucc b => exact Int.negSucc_lt_zero _

/-- C17 (amended). `nearestPowerOfTwo` returns 1 for every non-positive `int`
above `math.MinInt`: `capacity - 1` does not wrap, is negative, stays negative
under the smear, and the guard `n < 0` returns 1. -/
theorem nearestPowerOfTwo_nonpos (n : Int) (h1 : -(2 ^ 63) < n) (h2 : n ≤ 0) :
    nearestPowerOfTwo n = 1 := by
  have hw : wrapInt (n - 1) = n - 1 := wrapInt_of_range _ (by omega) (by omega)
  unfold nearestPowerOfTwo
  simp only [hw]
  rw [if_pos]
  exact lor_neg _ _ (lor_neg _ _ (lor_neg _ _ (lor_neg _ _ (lor_neg _ _ (by omega)))))

theorem nearestPowerOfTwo_nonpos_witness :
    nearestPowerOfTwo 0 = 1 ∧ nearestPowerOfTwo (-5) = 1 ∧
      nearestPowerOfTwo (-(2 ^ 63) + 1) = 1 :=
  ⟨nearestPowerOfTwo_nonpos 0 (by decide) (by decide),
    nearestPowerOfTwo_nonpos (-5) (by decide) (by decide),
    nearestPowerOfTwo_nonpos (-(2 ^ 63) + 1) (by decide) (by decide)⟩

/-- The neighbours of the failing input of C2: with offsets `-5` (minus the rune
count) and `-7` (below minus the byte length) `Substring("héllo", ·, 3)` returns
the first three runes. -/
theorem Substring_clamp_neighbours :
    Substring (utf8 "héllo") (-5) 3 = Outcome.ok (utf8 "hél") ∧
      Substring (utf8 "héllo") (-7) 3 = Outcome.ok (utf8 "hél") := by
  decide

end Lo
